import Mathlib

/-!
Verification of the hunk absorption engine of the `cmt` tool.

The Go sources are shallowly embedded: string contents are modelled as
`List Char` (called `Str` below) where the code inspects string structure,
machine integers as `Int`/`Nat`, `float64` confidences as `Rat`
(the code only copies and compares them), and fallible code as `Except`
or `Option`.  Places where the Go code would panic (out-of-range string
slicing) are modelled explicitly.
-/

namespace Cmt

/-- Character-list strings, used where the Go code manipulates string
contents. -/
abbrev Str := List Char

/-- Contents of a Lean string literal as a `Str`. -/
def strOf (s : String) : Str := s.data

/-- Go `strings.HasPrefix(l, p)` for a literal p. -/
def pfx (p : String) (l : Str) : Bool := p.data.isPrefixOf l

/-- Go `strings.TrimPrefix(l, p)`: drops `p` when it is a prefix, else
returns `l` unchanged. -/
def dropPfxIf (p : String) (l : Str) : Str :=
  if p.data.isPrefixOf l then l.drop p.data.length else l

/-- Go `strings.Split(l, c)` for a one-character separator. -/
def splitOnChar (c : Char) : Str → List Str
  | [] => [[]]
  | x :: xs =>
    if x = c then [] :: splitOnChar c xs
    else
      match splitOnChar c xs with
      | [] => [[x]]
      | y :: ys => (x :: y) :: ys

/-- The lines produced by `bufio.Scanner` over a string: split on
newlines, with no final empty token when the text ends in a newline. -/
def splitLines (s : String) : List Str :=
  if s.data = [] then []
  else
    let parts := splitOnChar '\n' s.data
    if s.data.getLast? = some '\n' then parts.dropLast else parts

/-- Go `strings.TrimSpace`. -/
def trimSpaceC (l : Str) : Str :=
  ((l.dropWhile Char.isWhitespace).reverse.dropWhile Char.isWhitespace).reverse

/-- Digit scan of `fmt.Sscanf(s, "%d")` on an unsigned body: longest
leading digit run, failing when there is none. -/
def scanDigits (s : Str) : Option Nat :=
  let ds := s.takeWhile Char.isDigit
  if ds = [] then none
  else some (ds.foldl (fun acc c => 10 * acc + (c.toNat - 48)) 0)

/-- Go `fmt.Sscanf(s, "%d", &n)`: an optional minus sign followed by at
least one digit; trailing non-digits are ignored, as in Go. -/
def goScanInt (s : Str) : Option Int :=
  if s.head? = some '-' then (scanDigits (s.drop 1)).map (fun n => -(n : Int))
  else (scanDigits s).map (fun n => (n : Int))

/-- `git.Hunk`: a single diff hunk (src/internal/git/absorb.go). -/
structure Hunk where
  filePath : Str
  oldFilePath : Str
  isNew : Bool
  isDeleted : Bool
  isRenamed : Bool
  header : Str
  content : Str
  lines : List Str
  contextBefore : List Str
  contextAfter : List Str
  addedLines : List Str
  removedLines : List Str
  oldStartLine : Int := 0
  oldLineCount : Int := 0
  newStartLine : Int := 0
  newLineCount : Int := 0
deriving DecidableEq, Repr

/-- `git.CommitInfo`: a candidate absorption target. -/
structure CommitInfo where
  sha : Str
  message : Str
  diff : Str
deriving DecidableEq, Repr

/-- `parseLineRange`: parses `"10,5"` or `"10"` into (start, count),
count defaulting to 1 when absent. -/
def parseLineRange (rangeStr : Str) : Except String (Int × Int) := do
  let parts := splitOnChar ',' rangeStr
  let start ←
    match parts.head? with
    | none => pure 0
    | some p0 =>
      if p0 = [] then pure (0 : Int)
      else
        match goScanInt p0 with
        | some n => pure n
        | none => Except.error "invalid start line"
  let count ←
    match parts with
    | _ :: p1 :: _ =>
      match goScanInt p1 with
      | some n => pure n
      | none => Except.error "invalid line count"
    | _ => pure 1
  pure (start, count)

/-- Positions at which `"@@"` occurs in a line (for `strings.Index` /
`strings.LastIndex`). -/
def idxsOfAtAt (cs : Str) : List Nat :=
  (List.range cs.length).filter (fun i => pfx "@@" (cs.drop i))

/-- `parseHunkHeader`: extracts the four line numbers from an `@@` line.
The case `startIdx + 2 > endIdx`, where the Go code would panic on an
out-of-range slice, is mapped to an error (in both cases the parse
produces no hunks). -/
def parseHunkHeaderNums (header : Str) : Except String (Int × Int × Int × Int) := do
  let occ := idxsOfAtAt header
  match occ.head?, occ.getLast? with
  | some s, some e =>
    if s = e then Except.error "invalid hunk header format"
    else if s + 2 > e then Except.error "slice bounds out of range"
    else
      let lineInfo := trimSpaceC ((header.take e).drop (s + 2))
      let parts := (splitOnChar ' ' lineInfo).filter (· ≠ [])
      match parts with
      | [oldPart, newPart] => do
        let (os, oc) ← parseLineRange (dropPfxIf "-" oldPart)
        let (ns, nc) ← parseLineRange (dropPfxIf "+" newPart)
        pure (os, oc, ns, nc)
      | _ => Except.error "invalid line info format"
  | _, _ => Except.error "invalid hunk header format"

/-- Body-line classification of `SplitDiffIntoHunks`: append the line to
the hunk verbatim and categorize it into added / removed / context
before / context after. -/
def addLineToHunk (h : Hunk) (line : Str) : Hunk :=
  let h := { h with content := h.content ++ line ++ strOf "\n",
                    lines := h.lines ++ [line] }
  if pfx "+" line && !pfx "+++" line then
    { h with addedLines := h.addedLines ++ [dropPfxIf "+" line] }
  else if pfx "-" line && !pfx "---" line then
    { h with removedLines := h.removedLines ++ [dropPfxIf "-" line] }
  else if pfx " " line then
    if h.addedLines = [] && h.removedLines = [] then
      { h with contextBefore := h.contextBefore ++ [dropPfxIf " " line] }
    else
      { h with contextAfter := h.contextAfter ++ [dropPfxIf " " line] }
  else h

/-- Per-file scanning state of `SplitDiffIntoHunks`. -/
structure ParserState where
  hunks : List Hunk
  currentFile : Str
  oldFile : Str
  isNew : Bool
  isDeleted : Bool
  isRenamed : Bool
  currentHunk : Option Hunk
  inHunk : Bool
deriving Repr

def initParserState : ParserState :=
  ⟨[], [], [], false, false, false, none, false⟩

/-- Flush the open hunk (used for `diff --git` lines and at end of
input). -/
def flushHunk (st : ParserState) : ParserState :=
  match st.currentHunk, st.inHunk with
  | some h, true => { st with hunks := st.hunks ++ [h], currentHunk := none, inHunk := false }
  | _, _ => st

/-- The `diff --git` handling of the scanning loop: flush the open hunk
and reset per-file state. -/
def stepFileHeader (st0 : ParserState) (line : Str) : ParserState :=
  if pfx "diff --git" line then
    let st1 := flushHunk st0
    let parts := splitOnChar ' ' line
    let st2 :=
      if 4 ≤ parts.length then
        { st1 with currentFile := dropPfxIf "b/" (parts.getD 3 []),
                   oldFile := dropPfxIf "a/" (parts.getD 2 []) }
      else st1
    { st2 with isNew := false, isDeleted := false, isRenamed := false }
  else st0

/-- The file-status header handling of the scanning loop. -/
def stepStatusHeaders (st : ParserState) (line : Str) : ParserState :=
  if pfx "new file mode" line then { st with isNew := true }
  else if pfx "deleted file mode" line then { st with isDeleted := true }
  else if pfx "rename from" line then
    { st with isRenamed := true, oldFile := dropPfxIf "rename from " line }
  else if pfx "rename to" line then
    { st with currentFile := dropPfxIf "rename to " line }
  else st

/-- The hunk-header / body-line handling of the scanning loop. -/
def stepHunkLine (st : ParserState) (line : Str) : Except String ParserState :=
  if pfx "@@" line then
    let st :=
      match st.currentHunk, st.inHunk with
      | some h, true => { st with hunks := st.hunks ++ [h] }
      | _, _ => st
    match parseHunkHeaderNums line with
    | Except.error e => Except.error ("failed to parse hunk header: " ++ e)
    | Except.ok (os, oc, ns, nc) =>
      Except.ok { st with
        currentHunk := some {
          filePath := st.currentFile
          oldFilePath := st.oldFile
          isNew := st.isNew
          isDeleted := st.isDeleted
          isRenamed := st.isRenamed
          header := line
          content := line ++ strOf "\n"
          lines := []
          contextBefore := []
          contextAfter := []
          addedLines := []
          removedLines := []
          oldStartLine := os
          oldLineCount := oc
          newStartLine := ns
          newLineCount := nc }
        inHunk := true }
  else
    match st.inHunk, st.currentHunk with
    | true, some h => Except.ok { st with currentHunk := some (addLineToHunk h line) }
    | _, _ => Except.ok st

/-- One iteration of the scanning loop of `SplitDiffIntoHunks`. -/
def processDiffLine (st0 : ParserState) (line : Str) : Except String ParserState :=
  stepHunkLine (stepStatusHeaders (stepFileHeader st0 line) line) line

/-- `SplitDiffIntoHunks`: parse a unified diff into hunks. -/
def SplitDiffIntoHunks (diff : String) : Except String (List Hunk) := do
  let st ← (splitLines diff).foldlM processDiffLine initParserState
  pure (flushHunk st).hunks

/-! Classification predicates used to state facts about the parser. -/

def isAddLine (l : Str) : Bool := pfx "+" l && !pfx "+++" l

def isRemLine (l : Str) : Bool := pfx "-" l && !pfx "---" l

def isCtxLine (l : Str) : Bool := pfx " " l

def isChangeLine (l : Str) : Bool := isAddLine l || isRemLine l

/-- The added lines of a body, markers stripped. -/
def addedOf (lines : List Str) : List Str :=
  lines.filterMap (fun l => if isAddLine l then some (l.drop 1) else none)

/-- The removed lines of a body, markers stripped. -/
def removedOf (lines : List Str) : List Str :=
  lines.filterMap (fun l => if isRemLine l then some (l.drop 1) else none)

def ctxStrip (l : Str) : Option Str :=
  if isCtxLine l then some (l.drop 1) else none

/-- Context lines before the first added/removed line. -/
def ctxBeforeOf (lines : List Str) : List Str :=
  (lines.takeWhile (fun l => !isChangeLine l)).filterMap ctxStrip

/-- Context lines after the first added/removed line. -/
def ctxAfterOf (lines : List Str) : List Str :=
  (lines.dropWhile (fun l => !isChangeLine l)).filterMap ctxStrip

/-- A hunk whose four derived line groups agree with its recorded body
lines. -/
def HunkGroupsSpec (h : Hunk) : Prop :=
  h.contextBefore = ctxBeforeOf h.lines ∧
  h.contextAfter = ctxAfterOf h.lines ∧
  h.addedLines = addedOf h.lines ∧
  h.removedLines = removedOf h.lines

/-- Zero value of `Hunk`, used for guarded Go indexing. -/
def dummyHunk : Hunk :=
  { filePath := [], oldFilePath := [], isNew := false, isDeleted := false,
    isRenamed := false, header := [], content := [], lines := [],
    contextBefore := [], contextAfter := [], addedLines := [], removedLines := [] }

/-! ## Assignment Oracle Client (src/internal/ai) -/

/-- `ai.AlternativeAssignment`. -/
structure AlternativeAssignment where
  commitSHA : Str
  commitMessage : Str
  confidence : Rat
  reasoning : Str
deriving DecidableEq, Repr

/-- `ai.HunkAssignment`. -/
structure HunkAssignment where
  hunk : Hunk
  commitSHA : Str
  commitMessage : Str
  confidence : Rat
  reasoning : Str
  alternatives : List AlternativeAssignment := []
deriving DecidableEq, Repr

/-- `ai.AbsorbResponse`. -/
structure AbsorbResponse where
  assignments : List HunkAssignment
  unmatchedHunks : List Hunk
  tokensUsed : Int := 0
  model : Str := []
deriving DecidableEq, Repr

/-- `ai.AbsorbRequest` (the fields the post-processing step reads). -/
structure AbsorbRequest where
  hunks : List Hunk
  commits : List CommitInfo
  strategy : String
  confidenceThreshold : Rat
deriving Repr

/-- One alternative entry of the oracle's JSON document. -/
structure JSONAlternative where
  commitSHA : Str
  confidence : Rat
  reasoning : Str
deriving DecidableEq, Repr

/-- One assignment entry of the oracle's JSON document
(`absorbJSONResponse`). -/
structure JSONAssignment where
  hunkIndex : Int
  commitSHA : Str
  confidence : Rat
  reasoning : Str
  alternatives : List JSONAlternative := []
deriving DecidableEq, Repr

/-- The oracle's JSON document after `json.Unmarshal`. -/
structure JSONAbsorbResponse where
  assignments : List JSONAssignment
  unmatchedHunks : List Int
deriving DecidableEq, Repr

/-- First line of a commit message (`strings.Split(msg, "\n")[0]`). -/
def firstLineOf (msg : Str) : Str := (splitOnChar '\n' msg).headD []

/-- Commit-SHA prefix resolution of `parseAbsorbResponse`: scan the
candidate commits for one whose SHA starts with the first 8 characters
of the oracle-supplied SHA; on a hit return the full SHA and the first
message line, otherwise keep the SHA as given with an empty message.
Returns `none` where the Go code panics: slicing `sha[:8]` of a SHA
shorter than 8 characters, which is evaluated as soon as there is at
least one commit to compare against. -/
def resolveCommitSHA (commits : List CommitInfo) (sha : Str) : Option (Str × Str) :=
  match commits with
  | [] => some (sha, [])
  | _ =>
    if sha.length < 8 then none
    else
      match commits.find? (fun c => (sha.take 8).isPrefixOf c.sha) with
      | some c => some (c.sha, firstLineOf c.message)
      | none => some (sha, [])

/-- The alternatives loop of `parseAbsorbResponse`. -/
def processAlternatives (commits : List CommitInfo) :
    List JSONAlternative → Option (List AlternativeAssignment)
  | [] => some []
  | alt :: rest => do
    let (sha, msg) ← resolveCommitSHA commits alt.commitSHA
    let tail ← processAlternatives commits rest
    pure ({ commitSHA := sha, commitMessage := msg,
            confidence := alt.confidence, reasoning := alt.reasoning } :: tail)

/-- The assignments loop of `parseAbsorbResponse`: skip out-of-range
hunk indices; record every in-range index as assigned; under strategy
"best-match" demote a below-threshold entry's hunk to the unmatched
list, otherwise keep the converted assignment.  Returns the kept
assignments, the demoted hunks and the recorded indices, each in entry
order. -/
def processAssignmentEntries (req : AbsorbRequest) :
    List JSONAssignment → Option (List HunkAssignment × List Hunk × List Int)
  | [] => some ([], [], [])
  | e :: rest =>
    if e.hunkIndex < 0 ∨ (req.hunks.length : Int) ≤ e.hunkIndex then
      processAssignmentEntries req rest
    else do
      let hunk := req.hunks.getD e.hunkIndex.toNat dummyHunk
      let (sha, msg) ← resolveCommitSHA req.commits e.commitSHA
      let alts ← processAlternatives req.commits e.alternatives
      let ha : HunkAssignment :=
        { hunk := hunk, commitSHA := sha, commitMessage := msg,
          confidence := e.confidence, reasoning := e.reasoning,
          alternatives := alts }
      let (as, dem, idxs) ← processAssignmentEntries req rest
      if req.strategy = "best-match" ∧ e.confidence < req.confidenceThreshold then
        pure (as, hunk :: dem, e.hunkIndex :: idxs)
      else
        pure (ha :: as, dem, e.hunkIndex :: idxs)

/-- The unmatched-index loop of `parseAbsorbResponse`: an in-range index
not already assigned contributes its hunk. -/
def processUnmatchedIdxs (hunks : List Hunk) (assigned : List Int)
    (idxs : List Int) : List Hunk :=
  idxs.filterMap (fun idx =>
    if 0 ≤ idx ∧ idx < (hunks.length : Int) ∧ idx ∉ assigned then
      some (hunks.getD idx.toNat dummyHunk)
    else none)

/-- The closure loop of `parseAbsorbResponse`: any hunk neither assigned
nor mentioned in the unmatched index list is added to unmatched. -/
def closureUnmatched (hunks : List Hunk) (assigned : List Int)
    (unmatchedIdxs : List Int) : List Hunk :=
  (List.range hunks.length).filterMap (fun (i : Nat) =>
    if (i : Int) ∉ assigned ∧ (i : Int) ∉ unmatchedIdxs then
      some (hunks.getD i dummyHunk)
    else none)

/-- Post-processing step of `parseAbsorbResponse`, applied to the parsed
JSON document.  `none` models the panic inside SHA resolution. -/
def parseAbsorbResponse (req : AbsorbRequest) (jsonResp : JSONAbsorbResponse) :
    Option AbsorbResponse := do
  let (as, dem, assigned) ← processAssignmentEntries req jsonResp.assignments
  pure { assignments := as,
         unmatchedHunks :=
           dem ++ processUnmatchedIdxs req.hunks assigned jsonResp.unmatchedHunks
               ++ closureUnmatched req.hunks assigned jsonResp.unmatchedHunks }

/-! ## Assignment Review State (src/internal/ui/absorb.go) -/

/-- Zero value of `HunkAssignment`, used for guarded Go indexing. -/
def dummyAssignment : HunkAssignment :=
  { hunk := dummyHunk, commitSHA := [], commitMessage := [],
    confidence := 0, reasoning := [], alternatives := [] }

/-- The review-relevant state of `AbsorbReviewModel` (viewport and
rendering state omitted: never read by the state transitions). -/
structure AbsorbReviewModel where
  assignments : List HunkAssignment
  unmatched : List Hunk
  currentIndex : Nat
  accepted : Bool
  cancelled : Bool
  modifications : List (Nat × Str)
deriving DecidableEq, Repr

/-- `NewAbsorbReviewModel`. -/
def NewAbsorbReviewModel (resp : AbsorbResponse) : AbsorbReviewModel :=
  { assignments := resp.assignments, unmatched := resp.unmatchedHunks,
    currentIndex := 0, accepted := false, cancelled := false,
    modifications := [] }

/-- Map update `m.modifications[k] = v` for the Go `map[int]string`. -/
def setModification (mods : List (Nat × Str)) (k : Nat) (v : Str) : List (Nat × Str) :=
  if mods.any (fun p => p.1 = k) then
    mods.map (fun p => if p.1 = k then (k, v) else p)
  else mods ++ [(k, v)]

/-- The `accept` key: mark accepted and quit. -/
def pressAccept (m : AbsorbReviewModel) : AbsorbReviewModel :=
  { m with accepted := true }

/-- The `cancel` key: mark cancelled and quit. -/
def pressCancel (m : AbsorbReviewModel) : AbsorbReviewModel :=
  { m with cancelled := true }

/-- The `unassign` key: move the current assignment's hunk to unmatched,
remove the assignment, and clamp the cursor. -/
def pressUnassign (m : AbsorbReviewModel) : AbsorbReviewModel :=
  if m.currentIndex < m.assignments.length then
    let assignment := m.assignments.getD m.currentIndex dummyAssignment
    let unmatched := m.unmatched ++ [assignment.hunk]
    let assignments :=
      m.assignments.take m.currentIndex ++ m.assignments.drop (m.currentIndex + 1)
    let currentIndex :=
      if assignments.length ≤ m.currentIndex ∧ 0 < m.currentIndex then
        m.currentIndex - 1
      else m.currentIndex
    { m with unmatched := unmatched, assignments := assignments,
             currentIndex := currentIndex }
  else m

/-- The `enter` key in the alternatives view: replace the current
assignment's target with alternative `selectedAlt - 1` (0 keeps the
current one) and record the modification. -/
def applySelectedAlternative (m : AbsorbReviewModel) (selectedAlt : Nat) :
    AbsorbReviewModel :=
  if 0 < selectedAlt ∧
      selectedAlt ≤ (m.assignments.getD m.currentIndex dummyAssignment).alternatives.length then
    let a := m.assignments.getD m.currentIndex dummyAssignment
    let alt := a.alternatives.getD (selectedAlt - 1) ⟨[], [], 0, []⟩
    let a' := { a with commitSHA := alt.commitSHA,
                       commitMessage := alt.commitMessage,
                       confidence := alt.confidence,
                       reasoning := alt.reasoning }
    { m with assignments := m.assignments.set m.currentIndex a',
             modifications := setModification m.modifications m.currentIndex alt.commitSHA }
  else m

/-- `AbsorbReviewModel.GetResult`: a modified response is returned only
when the modifications map is non-empty. -/
def GetResult (m : AbsorbReviewModel) : Bool × Option AbsorbResponse :=
  if m.cancelled then (false, none)
  else if !m.accepted then (false, none)
  else if 0 < m.modifications.length then
    (true, some { assignments := m.assignments, unmatchedHunks := m.unmatched })
  else (true, none)

/-! ## Fixup Applier (src/internal/git/absorb.go, src/cmd/cmt/absorb.go)

The git subprocess calls are abstracted by outcome functions: the
control flow around them is the object of study. -/

/-- Outcomes of the subprocess calls made by one `ApplyHunksAsFixup`
call. -/
structure FixupOutcomes where
  checkoutOK : Str → Bool
  applyOK : Bool
  fixupOK : Bool

/-- Observable trace of one `ApplyHunksAsFixup` call. -/
structure FixupTrace where
  restoresAttempted : List Str
  patchApplied : Bool
  fixupCommitted : Bool
  errMsg : Option String
deriving Repr

/-- The restore loop of `ApplyHunksAsFixup`: each hunk's file is checked
out from HEAD; a checkout failure is fatal unless the hunk marks the
file as new.  Returns the files attempted in order and the error, if
any. -/
def restoreLoop (oc : FixupOutcomes) : List Hunk → List Str × Option String
  | [] => ([], none)
  | h :: rest =>
    if oc.checkoutOK h.filePath then
      let (fs, e) := restoreLoop oc rest
      (h.filePath :: fs, e)
    else if h.isNew then
      let (fs, e) := restoreLoop oc rest
      (h.filePath :: fs, e)
    else ([h.filePath], some "failed to reset file")

/-- `ApplyHunksAsFixup`: restore all touched files, then apply the
synthesized patch to worktree and index, then create the fixup commit;
any fatal step aborts the call. -/
def ApplyHunksAsFixup (oc : FixupOutcomes) (hunks : List Hunk) : FixupTrace :=
  if hunks.length = 0 then
    { restoresAttempted := [], patchApplied := false, fixupCommitted := false,
      errMsg := some "no hunks to apply" }
  else
    match restoreLoop oc hunks with
    | (fs, some msg) =>
      { restoresAttempted := fs, patchApplied := false, fixupCommitted := false,
        errMsg := some msg }
    | (fs, none) =>
      if !oc.applyOK then
        { restoresAttempted := fs, patchApplied := false, fixupCommitted := false,
          errMsg := some "failed to apply patch" }
      else if !oc.fixupOK then
        { restoresAttempted := fs, patchApplied := true, fixupCommitted := false,
          errMsg := some "failed to create fixup commit" }
      else
        { restoresAttempted := fs, patchApplied := true, fixupCommitted := true,
          errMsg := none }

/-- Error text of the `runAbsorb` fixup loop for a failing target. -/
def errMsgForTarget (sha : Str) : Str :=
  strOf "failed to create fixup commit for " ++ sha.take 8

/-- The per-target loop of `runAbsorb` step 10 (`ApplyAssignments`):
iterate over the grouped targets in some order and call
`ApplyHunksAsFixup` for each; the per-target outcome is abstracted by
`applyOK`.  Returns the targets attempted in order and the error the
loop returned, if any. -/
def applyAssignmentsLoop (applyOK : Str → Bool) :
    List (Str × List Hunk) → List Str × Option Str
  | [] => ([], none)
  | (sha, _hs) :: rest =>
    if applyOK sha then
      let (att, e) := applyAssignmentsLoop applyOK rest
      (sha :: att, e)
    else ([sha], some (errMsgForTarget sha))

/-! ## Backup & Undo State Machine (src/internal/git) -/

/-- `git.AbsorbState`. -/
structure AbsorbState where
  originalHEAD : Str
  backupRef : Str
  operations : List Str
  timestamp : Int
  currentBranch : Str
  stashSHA : Str
deriving DecidableEq, Repr

/-- Zero value of `AbsorbState`, the starting point of
`LoadAbsorbState`. -/
def emptyAbsorbState : AbsorbState :=
  { originalHEAD := [], backupRef := [], operations := [], timestamp := 0,
    currentBranch := [], stashSHA := [] }

/-- Outcomes of the subprocess calls made by one `UndoAbsorb` call. -/
structure UndoEnv where
  loadResult : Option AbsorbState
  checkoutOK : Bool
  resetOK : Bool
  stashPopOK : Bool
  deleteRefOK : Bool

/-- Observable trace of one `UndoAbsorb` call. -/
structure UndoTrace where
  checkedOutBranch : Option Str := none
  resetTo : Option Str := none
  stashPopAttempted : Bool := false
  stashWarning : Bool := false
  deleteRefWarning : Bool := false
  backupRefDeleted : Bool := false
  stateFileRemoved : Bool := false
  err : Option String := none
deriving Repr

/-- `UndoAbsorb`: load state, check the backup ref, switch to the
recorded branch, mixed-reset to the backup ref, then best-effort: stash
pop (warning on failure), backup-ref deletion (warning on failure), and
unconditional state-file removal. -/
def UndoAbsorb (env : UndoEnv) : UndoTrace :=
  match env.loadResult with
  | none => { err := some "no absorb state found to undo" }
  | some state =>
    if state.backupRef = [] then { err := some "no backup reference found in state" }
    else if !env.checkoutOK then { err := some "failed to checkout original branch" }
    else
      let t0 : UndoTrace := { checkedOutBranch := some state.currentBranch }
      if !env.resetOK then { t0 with err := some "failed to reset to backup" }
      else
        let t1 := { t0 with resetTo := some state.backupRef }
        let t2 :=
          if state.stashSHA ≠ [] then
            if env.stashPopOK then { t1 with stashPopAttempted := true }
            else { t1 with stashPopAttempted := true, stashWarning := true }
          else t1
        let t3 :=
          if env.deleteRefOK then { t2 with backupRefDeleted := true }
          else { t2 with deleteRefWarning := true }
        { t3 with stateFileRemoved := true, err := none }

/-- Match semantics of `git show-ref --heads <pattern>`: the `--heads`
flag limits the listing to refs under `refs/heads/`, and a pattern
matches a ref only when the ref equals the pattern or ends in
`"/" ++ pattern` (tail-match on complete path components, per
git-show-ref(1)). -/
def showRefMatch (pat : Str) (r : Str) : Bool :=
  pfx "refs/heads/" r && (r == pat || ('/' :: pat).isSuffixOf r)

/-- `ListBackupRefs` runs `git show-ref --heads refs/cmt-backup/` and
collects the ref name (second field) of each output line; when the
command exits 1 (no ref matched) the Go code returns an empty list.
Because `--heads` restricts to `refs/heads/` and the pattern ends in a
slash so it can never tail-match a complete path component, no ref in
`refs/cmt-backup/` is ever listed. -/
def ListBackupRefs (store : List Str) : List Str :=
  store.filter (showRefMatch (strOf "refs/cmt-backup/"))

/-- `runCleanupBackups` over a ref store: load the active state (if
any), list the backup refs via `ListBackupRefs`, skip the ref equal to
the active backup, and attempt `DeleteBackupRef` on every other listed
ref; a failed delete (`deleteOK ref = false`) only prints a warning and
the ref stays in the store. -/
def runCleanupBackups (store : List Str) (loadResult : Option AbsorbState)
    (deleteOK : Str → Bool) : List Str :=
  let active := match loadResult with
    | some st => st.backupRef
    | none => []
  let refs := ListBackupRefs store
  refs.foldl (fun s ref =>
    if ref = active then s
    else if deleteOK ref then s.erase ref
    else s) store

/-! ## Undo-state persistence (SaveAbsorbState / LoadAbsorbState) -/

/-- Decimal digits of a natural number, as written by Go `%d`. -/
def natReprChars (n : Nat) : Str :=
  if h : n < 10 then [Char.ofNat (48 + n)]
  else natReprChars (n / 10) ++ [Char.ofNat (48 + n % 10)]
decreasing_by
  exact Nat.div_lt_self (by omega) (by omega)

/-- Go `%d` of a (signed) integer. -/
def intReprChars (i : Int) : Str :=
  if i < 0 then '-' :: natReprChars (-i).toNat else natReprChars i.toNat

/-- The lines written by `SaveAbsorbState`, in order: the four fixed
keys, the stash key only when a stash was recorded, then one
`operation=` line per log entry. -/
def serializeAbsorbState (state : AbsorbState) : List Str :=
  [strOf "original_head=" ++ state.originalHEAD,
   strOf "backup_ref=" ++ state.backupRef,
   strOf "current_branch=" ++ state.currentBranch,
   strOf "timestamp=" ++ intReprChars state.timestamp]
  ++ (if state.stashSHA ≠ [] then [strOf "stash_sha=" ++ state.stashSHA] else [])
  ++ state.operations.map (fun op => strOf "operation=" ++ op)

/-- Go `strings.SplitN(line, "=", 2)`: `none` when the line has no `=`
(the reader skips such lines). -/
def splitN2Eq : Str → Option (Str × Str)
  | [] => none
  | c :: rest =>
    if c = '=' then some ([], rest)
    else (splitN2Eq rest).map (fun p => (c :: p.1, p.2))

/-- One iteration of the `LoadAbsorbState` scanner loop: dispatch on the
key, ignoring unknown keys and the legacy `backup_branch` key. -/
def applyStateLine (st : AbsorbState) (line : Str) : AbsorbState :=
  match splitN2Eq line with
  | none => st
  | some (key, value) =>
    if key = strOf "original_head" then { st with originalHEAD := value }
    else if key = strOf "backup_ref" then { st with backupRef := value }
    else if key = strOf "current_branch" then { st with currentBranch := value }
    else if key = strOf "timestamp" then
      match goScanInt value with
      | some n => { st with timestamp := n }
      | none => st
    else if key = strOf "stash_sha" then { st with stashSHA := value }
    else if key = strOf "operation" then { st with operations := st.operations ++ [value] }
    else st

/-- `LoadAbsorbState` over the lines of the state file. -/
def LoadAbsorbState (lines : List Str) : AbsorbState :=
  lines.foldl applyStateLine emptyAbsorbState

/-! ## Concrete example values used by witnesses and counterexamples -/

def exHunkA : Hunk :=
  { dummyHunk with filePath := strOf "a.txt", header := strOf "@@ -1 +1 @@" }

def exHunkB : Hunk :=
  { dummyHunk with filePath := strOf "b.txt", isNew := true }

def exAssignA : HunkAssignment :=
  { hunk := exHunkA, commitSHA := strOf "aaaaaaaa11", commitMessage := strOf "fix a",
    confidence := 9/10, reasoning := [], alternatives := [] }

def exStateA : AbsorbState :=
  { originalHEAD := strOf "deadbeef", backupRef := strOf "refs/cmt-backup/absorb-1",
    operations := [strOf "Created 1 fixup commits"], timestamp := 1700000000,
    currentBranch := strOf "main", stashSHA := strOf "cafebabe" }

/-! ## Helper lemmas -/

/-- The fixup-loop restore phase errors as soon as some hunk's file
fails to restore and is not marked new. -/
theorem restoreLoop_err_of_exists (oc : FixupOutcomes) (hunks : List Hunk)
    (hex : ∃ h ∈ hunks, h.isNew = false ∧ oc.checkoutOK h.filePath = false) :
    (restoreLoop oc hunks).2.isSome = true := by
  induction hunks with
  | nil => simp at hex
  | cons h rest ih =>
    obtain ⟨x, hx, hnew, hco⟩ := hex
    rcases List.mem_cons.1 hx with rfl | hx
    · simp [restoreLoop, hco, hnew]
    · by_cases hch : oc.checkoutOK h.filePath = true
      · have := ih ⟨x, hx, hnew, hco⟩
        simp only [restoreLoop, hch, if_true]
        rcases hrl : restoreLoop oc rest with ⟨fs, e⟩
        simpa [hrl] using this
      · simp only [Bool.not_eq_true] at hch
        by_cases hn : h.isNew = true
        · have := ih ⟨x, hx, hnew, hco⟩
          simp only [restoreLoop, hch, hn, if_true, Bool.false_eq_true, if_false]
          rcases hrl : restoreLoop oc rest with ⟨fs, e⟩
          simpa [hrl] using this
        · simp only [Bool.not_eq_true] at hn
          simp [restoreLoop, hch, hn]

/-- The fixup-loop restore phase attempts every file, in hunk order,
when each failing restore belongs to a new file. -/
theorem restoreLoop_ok_of_forall (oc : FixupOutcomes) (hunks : List Hunk)
    (hall : ∀ h ∈ hunks, h.isNew = true ∨ oc.checkoutOK h.filePath = true) :
    restoreLoop oc hunks = (hunks.map (fun h => h.filePath), none) := by
  induction hunks with
  | nil => simp [restoreLoop]
  | cons h rest ih =>
    have hrest := ih (fun x hx => hall x (List.mem_cons_of_mem _ hx))
    rcases hall h (List.mem_cons_self _ _) with hn | hco
    · by_cases hch : oc.checkoutOK h.filePath = true
      · simp [restoreLoop, hch, hrest]
      · simp only [Bool.not_eq_true] at hch
        simp [restoreLoop, hch, hn, hrest]
    · simp [restoreLoop, hco, hrest]

/-! ## Claim theorems -/

/-- C2: the claim says that `unassign` followed by `accept` yields an
AbsorbResponse recording the unassign.  The code disagrees: `unassign`
does not touch the modifications map, so `GetResult` returns
`(true, none)` and the edit is lost, even though the model's internal
state does hold the unassigned hunk in `unmatched`.  This theorem
evaluates the code at the failing input. -/
theorem c2_unassign_lost_on_accept :
    GetResult (pressAccept (pressUnassign (NewAbsorbReviewModel
        { assignments := [exAssignA], unmatchedHunks := [] }))) = (true, none) ∧
    (pressUnassign (NewAbsorbReviewModel
        { assignments := [exAssignA], unmatchedHunks := [] })).unmatched = [exHunkA] ∧
    (pressUnassign (NewAbsorbReviewModel
        { assignments := [exAssignA], unmatchedHunks := [] })).assignments = [] := by
  refine ⟨rfl, by decide, by decide⟩

/-- C5 counterexample: with two grouped targets of which the first one
fails, the `runAbsorb` fixup loop returns an error without attempting
the second target, contradicting the claim that a failing target does
not prevent the remaining targets from being attempted. -/
theorem c5_counterexample :
    ((applyAssignmentsLoop (fun s => !(s == strOf "aaaaaaaa11"))
        [(strOf "aaaaaaaa11", []), (strOf "bbbbbbbb22", [])]).2.isSome = true) ∧
    strOf "bbbbbbbb22" ∉ (applyAssignmentsLoop (fun s => !(s == strOf "aaaaaaaa11"))
        [(strOf "aaaaaaaa11", []), (strOf "bbbbbbbb22", [])]).1 := by
  decide

/-- C5 amended: the fixup loop attempts targets in order up to and
including the first failing one, stops there, and returns an error
naming the failing target; targets after the failure are not
attempted. -/
theorem c5_amended_first_failure_aborts (applyOK : Str → Bool)
    (pre post : List (Str × List Hunk)) (t : Str × List Hunk)
    (hpre : ∀ p ∈ pre, applyOK p.1 = true) (ht : applyOK t.1 = false)
    (hlen : 8 ≤ t.1.length) :
    applyAssignmentsLoop applyOK (pre ++ t :: post) =
      (pre.map Prod.fst ++ [t.1], some (errMsgForTarget t.1)) := by
  induction pre with
  | nil =>
    rcases t with ⟨sha, hs⟩
    simp [applyAssignmentsLoop, ht]
  | cons p ps ih =>
    rcases p with ⟨sha, hs⟩
    have hp := hpre ⟨sha, hs⟩ (List.mem_cons_self _ _)
    simp only [List.cons_append, applyAssignmentsLoop, hp, if_true, List.append_eq]
    rw [ih (fun q hq => hpre q (List.mem_cons_of_mem _ hq))]
    simp

/-- C5 witness for the amended theorem. -/
theorem c5_amended_witness :
    applyAssignmentsLoop (fun s => !(s == strOf "bbbbbbbb22"))
        ([(strOf "aaaaaaaa11", [])] ++ (strOf "bbbbbbbb22", []) ::
          [(strOf "cccccccc33", [])]) =
      ([strOf "aaaaaaaa11"] ++ [strOf "bbbbbbbb22"],
        some (errMsgForTarget (strOf "bbbbbbbb22"))) := by
  have := c5_amended_first_failure_aborts (fun s => !(s == strOf "bbbbbbbb22"))
    [(strOf "aaaaaaaa11", [])] [(strOf "cccccccc33", [])] (strOf "bbbbbbbb22", [])
    (by decide) (by decide) (by decide)
  simpa using this

/-- C6: when stash reapplication fails during undo, the branch switch
and the mixed reset have already happened, the failure is only a
warning, the state record is still removed, and the undo reports
success. -/
theorem c6_undo_best_effort (st : AbsorbState) (delOK : Bool)
    (href : st.backupRef ≠ []) (hstash : st.stashSHA ≠ []) :
    (UndoAbsorb ⟨some st, true, true, false, delOK⟩).checkedOutBranch = some st.currentBranch ∧
    (UndoAbsorb ⟨some st, true, true, false, delOK⟩).resetTo = some st.backupRef ∧
    (UndoAbsorb ⟨some st, true, true, false, delOK⟩).stashWarning = true ∧
    (UndoAbsorb ⟨some st, true, true, false, delOK⟩).stateFileRemoved = true ∧
    (UndoAbsorb ⟨some st, true, true, false, delOK⟩).err = none := by
  cases delOK <;> simp [UndoAbsorb, href, hstash]

/-- C6 witness. -/
theorem c6_undo_witness :
    (UndoAbsorb ⟨some exStateA, true, true, false, true⟩).checkedOutBranch = some exStateA.currentBranch ∧
    (UndoAbsorb ⟨some exStateA, true, true, false, true⟩).resetTo = some exStateA.backupRef ∧
    (UndoAbsorb ⟨some exStateA, true, true, false, true⟩).stashWarning = true ∧
    (UndoAbsorb ⟨some exStateA, true, true, false, true⟩).stateFileRemoved = true ∧
    (UndoAbsorb ⟨some exStateA, true, true, false, true⟩).err = none :=
  c6_undo_best_effort exStateA true (by decide) (by decide)

/-- C7: cleanup deletes nothing. `git show-ref --heads refs/cmt-backup/`
never lists a backup ref, because `--heads` limits the listing to
`refs/heads/` and the trailing-slash pattern never tail-matches a
complete path component. On a store holding the active backup
`refs/cmt-backup/absorb-1` (named by the loaded state) and a stale
`refs/cmt-backup/absorb-2`, `ListBackupRefs` returns the empty list and
`runCleanupBackups` leaves the store unchanged even when every delete
would succeed: the stale backup ref survives, contradicting the claim
that every non-active ref of the backup namespace is deleted. -/
theorem c7_cleanup_deletes_nothing :
    ListBackupRefs
        [strOf "refs/cmt-backup/absorb-1", strOf "refs/cmt-backup/absorb-2",
          strOf "refs/heads/main"] = [] ∧
    runCleanupBackups
        [strOf "refs/cmt-backup/absorb-1", strOf "refs/cmt-backup/absorb-2",
          strOf "refs/heads/main"] (some exStateA) (fun _ => true) =
      [strOf "refs/cmt-backup/absorb-1", strOf "refs/cmt-backup/absorb-2",
        strOf "refs/heads/main"] ∧
    strOf "refs/cmt-backup/absorb-2" ∈
      runCleanupBackups
        [strOf "refs/cmt-backup/absorb-1", strOf "refs/cmt-backup/absorb-2",
          strOf "refs/heads/main"] (some exStateA) (fun _ => true) := by
  decide

/-- C8: in `ApplyHunksAsFixup`, a failing restore of a file not marked
new aborts the call before any patch application or fixup commit; and
when every restore failure belongs to a new file, all touched files are
restored (in hunk order) before the patch is applied. -/
theorem c8_restore_before_apply (oc : FixupOutcomes) (hunks : List Hunk)
    (hne : hunks ≠ []) :
    ((∃ h ∈ hunks, h.isNew = false ∧ oc.checkoutOK h.filePath = false) →
      (ApplyHunksAsFixup oc hunks).patchApplied = false ∧
      (ApplyHunksAsFixup oc hunks).fixupCommitted = false ∧
      (ApplyHunksAsFixup oc hunks).errMsg.isSome = true) ∧
    ((∀ h ∈ hunks, h.isNew = true ∨ oc.checkoutOK h.filePath = true) →
      (ApplyHunksAsFixup oc hunks).restoresAttempted = hunks.map (fun h => h.filePath) ∧
      (ApplyHunksAsFixup oc hunks).patchApplied = oc.applyOK ∧
      (ApplyHunksAsFixup oc hunks).fixupCommitted = (oc.applyOK && oc.fixupOK)) := by
  have hlen : ¬ hunks.length = 0 := by
    simpa [List.length_eq_zero] using hne
  constructor
  · intro hex
    have hsome := restoreLoop_err_of_exists oc hunks hex
    rcases hrl : restoreLoop oc hunks with ⟨fs, e⟩
    rw [hrl] at hsome
    rcases e with _ | msg
    · simp at hsome
    · simp [ApplyHunksAsFixup, hlen, hrl]
  · intro hall
    have hrl := restoreLoop_ok_of_forall oc hunks hall
    cases hA : oc.applyOK <;> cases hF : oc.fixupOK <;>
      simp [ApplyHunksAsFixup, hlen, hrl, hA, hF]

/-- C8 witness. -/
theorem c8_restore_witness :
    ((∃ h ∈ [exHunkA, exHunkB], h.isNew = false ∧
        (fun (_ : Str) => true) h.filePath = false) →
      (ApplyHunksAsFixup ⟨fun _ => true, true, true⟩ [exHunkA, exHunkB]).patchApplied = false ∧
      (ApplyHunksAsFixup ⟨fun _ => true, true, true⟩ [exHunkA, exHunkB]).fixupCommitted = false ∧
      (ApplyHunksAsFixup ⟨fun _ => true, true, true⟩ [exHunkA, exHunkB]).errMsg.isSome = true) ∧
    ((∀ h ∈ [exHunkA, exHunkB], h.isNew = true ∨
        (fun (_ : Str) => true) h.filePath = true) →
      (ApplyHunksAsFixup ⟨fun _ => true, true, true⟩ [exHunkA, exHunkB]).restoresAttempted =
        [exHunkA, exHunkB].map (fun h => h.filePath) ∧
      (ApplyHunksAsFixup ⟨fun _ => true, true, true⟩ [exHunkA, exHunkB]).patchApplied = true ∧
      (ApplyHunksAsFixup ⟨fun _ => true, true, true⟩ [exHunkA, exHunkB]).fixupCommitted = (true && true)) :=
  c8_restore_before_apply ⟨fun _ => true, true, true⟩ [exHunkA, exHunkB] (by decide)

/-! ## Decimal round-trip lemmas for the persisted timestamp -/

theorem digitChar_toNat (r : Nat) (h : r < 10) : (Char.ofNat (48 + r)).toNat = 48 + r := by
  interval_cases r <;> decide

theorem digitChar_isDigit (r : Nat) (h : r < 10) : (Char.ofNat (48 + r)).isDigit = true := by
  interval_cases r <;> decide

theorem natReprChars_digits (n : Nat) : ∀ c ∈ natReprChars n, c.isDigit = true := by
  induction n using Nat.strong_induction_on with
  | _ n ih =>
    rw [natReprChars]
    split
    · next h =>
      intro c hc
      rw [List.mem_singleton] at hc
      exact hc ▸ digitChar_isDigit n h
    · next h =>
      intro c hc
      rcases List.mem_append.1 hc with h1 | h2
      · exact ih (n / 10) (Nat.div_lt_self (by omega) (by omega)) c h1
      · rw [List.mem_singleton] at h2
        exact h2 ▸ digitChar_isDigit (n % 10) (Nat.mod_lt _ (by omega))

theorem natReprChars_ne_nil (n : Nat) : natReprChars n ≠ [] := by
  rw [natReprChars]
  split <;> simp

theorem natReprChars_val (n : Nat) :
    (natReprChars n).foldl (fun acc c => 10 * acc + (c.toNat - 48)) 0 = n := by
  induction n using Nat.strong_induction_on with
  | _ n ih =>
    rw [natReprChars]
    split
    · next h =>
      simp [digitChar_toNat n h]
    · next h =>
      rw [List.foldl_append]
      simp only [List.foldl_cons, List.foldl_nil,
        ih (n / 10) (Nat.div_lt_self (by omega) (by omega)),
        digitChar_toNat (n % 10) (Nat.mod_lt _ (by omega))]
      omega

theorem scanDigits_natRepr (n : Nat) : scanDigits (natReprChars n) = some n := by
  unfold scanDigits
  rw [List.takeWhile_eq_self_iff.2 (natReprChars_digits n)]
  rw [if_neg (natReprChars_ne_nil n)]
  rw [natReprChars_val n]

theorem goScanInt_natRepr (n : Nat) : goScanInt (natReprChars n) = some (n : Int) := by
  obtain ⟨c, cs, hc⟩ := List.exists_cons_of_ne_nil (natReprChars_ne_nil n)
  have hdig : c.isDigit = true := natReprChars_digits n c (hc ▸ List.mem_cons_self _ _)
  have hdash : ¬ ((natReprChars n).head? = some '-') := by
    rw [hc]
    intro hcontra
    simp only [List.head?_cons, Option.some.injEq] at hcontra
    rw [hcontra] at hdig
    exact absurd hdig (by decide)
  rw [goScanInt, if_neg hdash, scanDigits_natRepr n]
  rfl

theorem goScanInt_intRepr (t : Int) : goScanInt (intReprChars t) = some t := by
  unfold intReprChars
  split
  · next hneg =>
    rw [goScanInt]
    simp only [List.head?_cons, if_pos rfl, List.drop_succ_cons, List.drop_zero]
    rw [scanDigits_natRepr]
    show some (-(((-t).toNat : Nat) : Int)) = some t
    exact congrArg some (by omega)
  · next hpos =>
    rw [goScanInt_natRepr]
    congr 1
    omega

/-! ## Key-value line lemmas for the persisted state file -/

theorem splitN2Eq_keyline (key v : Str) (hk : '=' ∉ key) :
    splitN2Eq (key ++ '=' :: v) = some (key, v) := by
  induction key with
  | nil => simp [splitN2Eq]
  | cons c cs ih =>
    have hc : ¬ (c = '=') := fun h => hk (h ▸ List.mem_cons_self _ _)
    rw [List.cons_append, splitN2Eq, if_neg hc,
      ih (fun hm => hk (List.mem_cons_of_mem _ hm))]
    rfl

theorem applyLine_originalHead (st : AbsorbState) (v : Str) :
    applyStateLine st (strOf "original_head=" ++ v) = { st with originalHEAD := v } := by
  have h : strOf "original_head=" ++ v = strOf "original_head" ++ '=' :: v := by
    have hsplit : strOf "original_head=" = strOf "original_head" ++ ['='] := by decide
    rw [hsplit, List.append_assoc]; rfl
  rw [h]
  simp only [applyStateLine, splitN2Eq_keyline _ _ (by decide : '=' ∉ strOf "original_head")]
  rw [if_pos trivial]

theorem applyLine_backupRef (st : AbsorbState) (v : Str) :
    applyStateLine st (strOf "backup_ref=" ++ v) = { st with backupRef := v } := by
  have h : strOf "backup_ref=" ++ v = strOf "backup_ref" ++ '=' :: v := by
    have hsplit : strOf "backup_ref=" = strOf "backup_ref" ++ ['='] := by decide
    rw [hsplit, List.append_assoc]; rfl
  rw [h]
  simp only [applyStateLine, splitN2Eq_keyline _ _ (by decide : '=' ∉ strOf "backup_ref")]
  rw [if_neg (by decide), if_pos trivial]

theorem applyLine_currentBranch (st : AbsorbState) (v : Str) :
    applyStateLine st (strOf "current_branch=" ++ v) = { st with currentBranch := v } := by
  have h : strOf "current_branch=" ++ v = strOf "current_branch" ++ '=' :: v := by
    have hsplit : strOf "current_branch=" = strOf "current_branch" ++ ['='] := by decide
    rw [hsplit, List.append_assoc]; rfl
  rw [h]
  simp only [applyStateLine, splitN2Eq_keyline _ _ (by decide : '=' ∉ strOf "current_branch")]
  rw [if_neg (by decide), if_neg (by decide), if_pos trivial]

theorem applyLine_timestamp (st : AbsorbState) (t : Int) :
    applyStateLine st (strOf "timestamp=" ++ intReprChars t) = { st with timestamp := t } := by
  have h : strOf "timestamp=" ++ intReprChars t =
      strOf "timestamp" ++ '=' :: intReprChars t := by
    have hsplit : strOf "timestamp=" = strOf "timestamp" ++ ['='] := by decide
    rw [hsplit, List.append_assoc]; rfl
  rw [h]
  simp only [applyStateLine, splitN2Eq_keyline _ _ (by decide : '=' ∉ strOf "timestamp")]
  rw [if_neg (by decide), if_neg (by decide), if_neg (by decide), if_pos trivial,
    goScanInt_intRepr]

theorem applyLine_stashSHA (st : AbsorbState) (v : Str) :
    applyStateLine st (strOf "stash_sha=" ++ v) = { st with stashSHA := v } := by
  have h : strOf "stash_sha=" ++ v = strOf "stash_sha" ++ '=' :: v := by
    have hsplit : strOf "stash_sha=" = strOf "stash_sha" ++ ['='] := by decide
    rw [hsplit, List.append_assoc]; rfl
  rw [h]
  simp only [applyStateLine, splitN2Eq_keyline _ _ (by decide : '=' ∉ strOf "stash_sha")]
  rw [if_neg (by decide), if_neg (by decide), if_neg (by decide), if_neg (by decide),
    if_pos trivial]

theorem applyLine_operation (st : AbsorbState) (v : Str) :
    applyStateLine st (strOf "operation=" ++ v) =
      { st with operations := st.operations ++ [v] } := by
  have h : strOf "operation=" ++ v = strOf "operation" ++ '=' :: v := by
    have hsplit : strOf "operation=" = strOf "operation" ++ ['='] := by decide
    rw [hsplit, List.append_assoc]; rfl
  rw [h]
  simp only [applyStateLine, splitN2Eq_keyline _ _ (by decide : '=' ∉ strOf "operation")]
  rw [if_neg (by decide), if_neg (by decide), if_neg (by decide), if_neg (by decide),
    if_neg (by decide), if_pos trivial]

theorem foldl_operationLines (ops : List Str) :
    ∀ s : AbsorbState,
      List.foldl applyStateLine s (ops.map (fun op => strOf "operation=" ++ op)) =
        { s with operations := s.operations ++ ops } := by
  induction ops with
  | nil => intro s; simp
  | cons op rest ih =>
    intro s
    rw [List.map_cons, List.foldl_cons, applyLine_operation, ih]
    simp

/-- C10: the persisted undo state round-trips through save and load:
every field is recovered (values containing further `=` characters
included), the operation log keeps its order, and an empty stash id
stays empty. -/
theorem c10_state_roundtrip (st : AbsorbState)
    (hOH : '\n' ∉ st.originalHEAD) (hBR : '\n' ∉ st.backupRef)
    (hCB : '\n' ∉ st.currentBranch) (hSS : '\n' ∉ st.stashSHA)
    (hOps : ∀ op ∈ st.operations, '\n' ∉ op) :
    LoadAbsorbState (serializeAbsorbState st) = st := by
  obtain ⟨oh, br, ops, ts, cb, ss⟩ := st
  unfold LoadAbsorbState serializeAbsorbState
  rw [List.foldl_append, List.foldl_append]
  simp only [List.foldl_cons, List.foldl_nil]
  rw [applyLine_originalHead, applyLine_backupRef, applyLine_currentBranch,
    applyLine_timestamp]
  by_cases hs : ss = []
  · subst hs
    rw [if_neg (by simp)]
    simp only [List.foldl_nil]
    rw [foldl_operationLines]
    simp [emptyAbsorbState]
  · rw [if_pos (by simpa using hs)]
    simp only [List.foldl_cons, List.foldl_nil]
    rw [applyLine_stashSHA, foldl_operationLines]
    simp [emptyAbsorbState]

def exStateEq : AbsorbState :=
  { originalHEAD := strOf "abc=def", backupRef := strOf "refs/cmt-backup/absorb-2",
    operations := [strOf "op=1", strOf "op=2"], timestamp := 1700000000,
    currentBranch := strOf "feature=x", stashSHA := [] }

/-- C10 witness. -/
theorem c10_state_roundtrip_witness :
    LoadAbsorbState (serializeAbsorbState exStateEq) = exStateEq :=
  c10_state_roundtrip exStateEq (by decide) (by decide) (by decide) (by decide)
    (by decide)

/-! ## Diff-line marker lemmas -/

theorem pfx_one_cons (a c : Char) (cs : Str) (p : String) (hp : p.data = [a]) :
    pfx p (c :: cs) = (a == c) := by
  simp [pfx, hp, List.isPrefixOf]

theorem ctx_line_shape (l : Str) (h : isCtxLine l = true) : l = ' ' :: l.drop 1 := by
  rcases l with _ | ⟨c, cs⟩
  · rw [isCtxLine, pfx] at h
    simp [List.isPrefixOf] at h
  · rw [isCtxLine, pfx_one_cons ' ' c cs " " rfl] at h
    have hc : ' ' = c := by simpa using h
    rw [← hc]
    rfl

theorem add_line_shape (l : Str) (h : isAddLine l = true) : l = '+' :: l.drop 1 := by
  rw [isAddLine, Bool.and_eq_true] at h
  rcases l with _ | ⟨c, cs⟩
  · rw [pfx] at h
    simp [List.isPrefixOf] at h
  · have h1 := h.1
    rw [pfx_one_cons '+' c cs "+" rfl] at h1
    have hc : '+' = c := by simpa using h1
    rw [← hc]
    rfl

theorem rem_line_shape (l : Str) (h : isRemLine l = true) : l = '-' :: l.drop 1 := by
  rw [isRemLine, Bool.and_eq_true] at h
  rcases l with _ | ⟨c, cs⟩
  · rw [pfx] at h
    simp [List.isPrefixOf] at h
  · have h1 := h.1
    rw [pfx_one_cons '-' c cs "-" rfl] at h1
    have hc : '-' = c := by simpa using h1
    rw [← hc]
    rfl

theorem ctxStrip_of_change (l : Str) (h : isChangeLine l = true) : ctxStrip l = none := by
  rw [isChangeLine, Bool.or_eq_true] at h
  have hctx : isCtxLine l = false := by
    rcases h with ha | hr
    · rw [add_line_shape l ha, isCtxLine, pfx_one_cons ' ' '+' _ " " rfl]
      rfl
    · rw [rem_line_shape l hr, isCtxLine, pfx_one_cons ' ' '-' _ " " rfl]
      rfl
  rw [ctxStrip, if_neg]
  simp [hctx]

theorem ctxStrip_of_ctx (l : Str) (h : isCtxLine l = true) :
    ctxStrip l = some (l.drop 1) := by
  rw [ctxStrip, if_pos h]

theorem notChange_of_ctx (l : Str) (h : isCtxLine l = true) : isChangeLine l = false := by
  have hl := ctx_line_shape l h
  rw [isChangeLine, isAddLine, isRemLine, hl,
    pfx_one_cons '+' ' ' _ "+" rfl, pfx_one_cons '-' ' ' _ "-" rfl]
  rfl

theorem notRem_of_add (l : Str) (h : isAddLine l = true) : isRemLine l = false := by
  rw [add_line_shape l h, isRemLine, pfx_one_cons '-' '+' _ "-" rfl]
  rfl

theorem notAdd_of_rem (l : Str) (h : isRemLine l = true) : isAddLine l = false := by
  rw [rem_line_shape l h, isAddLine, pfx_one_cons '+' '-' _ "+" rfl]
  rfl

theorem dropPfxIf_of_pfx (p : String) (l : Str) (h : pfx p l = true) :
    dropPfxIf p l = l.drop p.data.length := by
  rw [dropPfxIf, if_pos]
  simpa [pfx] using h

/-! ## Group computations over an extended hunk body -/

theorem addedOf_concat (lines : List Str) (l : Str) :
    addedOf (lines ++ [l]) =
      addedOf lines ++ (if isAddLine l then [l.drop 1] else []) := by
  cases hl : isAddLine l <;>
    simp [addedOf, List.filterMap_append, hl]

theorem removedOf_concat (lines : List Str) (l : Str) :
    removedOf (lines ++ [l]) =
      removedOf lines ++ (if isRemLine l then [l.drop 1] else []) := by
  cases hl : isRemLine l <;>
    simp [removedOf, List.filterMap_append, hl]

theorem noChange_iff (lines : List Str) :
    (addedOf lines = [] ∧ removedOf lines = []) ↔
      ∀ l ∈ lines, isChangeLine l = false := by
  simp only [addedOf, removedOf, List.filterMap_eq_nil_iff]
  constructor
  · rintro ⟨h1, h2⟩ l hl
    have a1 := h1 l hl
    have a2 := h2 l hl
    rw [isChangeLine]
    cases hA : isAddLine l
    · cases hR : isRemLine l
      · rfl
      · rw [hR] at a2
        simp at a2
    · rw [hA] at a1
      simp at a1
  · intro hcl
    constructor
    · intro l hl
      have := hcl l hl
      rw [isChangeLine] at this
      rcases Bool.or_eq_false_iff.1 this with ⟨hA, _⟩
      simp [hA]
    · intro l hl
      have := hcl l hl
      rw [isChangeLine] at this
      rcases Bool.or_eq_false_iff.1 this with ⟨_, hR⟩
      simp [hR]

theorem ctxBeforeOf_concat (lines : List Str) (l : Str) :
    ctxBeforeOf (lines ++ [l]) =
      if addedOf lines = [] ∧ removedOf lines = [] then
        ctxBeforeOf lines ++ (ctxStrip l).toList
      else ctxBeforeOf lines := by
  by_cases hall : ∀ x ∈ lines, isChangeLine x = false
  · rw [if_pos ((noChange_iff lines).2 hall)]
    have hp : ∀ x ∈ lines, (!isChangeLine x) = true := by
      intro x hx
      rw [hall x hx]
      rfl
    rw [ctxBeforeOf, List.takeWhile_append_of_pos hp, List.filterMap_append,
      ctxBeforeOf, List.takeWhile_eq_self_iff.2 hp]
    congr 1
    cases hc : isChangeLine l
    · cases hcl : ctxStrip l <;>
        simp [List.takeWhile_cons, hc, hcl]
    · simp [List.takeWhile_cons, hc, ctxStrip_of_change l hc]
  · rw [if_neg (fun hcon => hall ((noChange_iff lines).1 hcon))]
    rw [ctxBeforeOf, ctxBeforeOf, List.takeWhile_append]
    rw [if_neg ?hlen]
    case hlen =>
      intro hlencon
      have heq : lines.takeWhile (fun l => !isChangeLine l) = lines :=
        List.takeWhile_prefix _ |>.eq_of_length hlencon
      have hallp := List.takeWhile_eq_self_iff.1 heq
      exact hall fun x hx => by simpa using hallp x hx

theorem ctxAfterOf_concat (lines : List Str) (l : Str) :
    ctxAfterOf (lines ++ [l]) =
      if addedOf lines = [] ∧ removedOf lines = [] then ctxAfterOf lines
      else ctxAfterOf lines ++ (ctxStrip l).toList := by
  by_cases hall : ∀ x ∈ lines, isChangeLine x = false
  · rw [if_pos ((noChange_iff lines).2 hall)]
    have hp : ∀ x ∈ lines, (!isChangeLine x) = true := by
      intro x hx
      rw [hall x hx]
      rfl
    rw [ctxAfterOf, List.dropWhile_append_of_pos hp, ctxAfterOf,
      List.dropWhile_eq_nil_iff.2 hp]
    cases hc : isChangeLine l
    · simp [List.dropWhile_cons, hc]
    · simp [List.dropWhile_cons, hc, ctxStrip_of_change l hc]
  · rw [if_neg (fun hcon => hall ((noChange_iff lines).1 hcon))]
    rw [ctxAfterOf, ctxAfterOf, List.dropWhile_append]
    rw [if_neg ?hne, List.filterMap_append]
    case hne =>
      intro hempty
      have heq : lines.dropWhile (fun l => !isChangeLine l) = [] := by
        simpa using hempty
      have hallp := List.dropWhile_eq_nil_iff.1 heq
      exact hall fun x hx => by simpa using hallp x hx
    cases hcl : ctxStrip l <;> simp [List.filterMap_cons, hcl]

/-! ## Case equations for the body-line classification -/

theorem addLineToHunk_add (h : Hunk) (l : Str)
    (hadd : (pfx "+" l && !pfx "+++" l) = true) :
    addLineToHunk h l =
      { h with content := h.content ++ l ++ strOf "\n",
               lines := h.lines ++ [l],
               addedLines := h.addedLines ++ [dropPfxIf "+" l] } := by
  simp only [addLineToHunk]
  rw [if_pos hadd]

theorem addLineToHunk_rem (h : Hunk) (l : Str)
    (hadd : ¬ (pfx "+" l && !pfx "+++" l) = true)
    (hrem : (pfx "-" l && !pfx "---" l) = true) :
    addLineToHunk h l =
      { h with content := h.content ++ l ++ strOf "\n",
               lines := h.lines ++ [l],
               removedLines := h.removedLines ++ [dropPfxIf "-" l] } := by
  simp only [addLineToHunk]
  rw [if_neg hadd, if_pos hrem]

theorem addLineToHunk_ctx_empty (h : Hunk) (l : Str)
    (hadd : ¬ (pfx "+" l && !pfx "+++" l) = true)
    (hrem : ¬ (pfx "-" l && !pfx "---" l) = true)
    (hctx : pfx " " l = true)
    (hemp : (h.addedLines = [] && h.removedLines = []) = true) :
    addLineToHunk h l =
      { h with content := h.content ++ l ++ strOf "\n",
               lines := h.lines ++ [l],
               contextBefore := h.contextBefore ++ [dropPfxIf " " l] } := by
  simp only [addLineToHunk]
  rw [if_neg hadd, if_neg hrem, if_pos hctx, if_pos (by simpa using hemp)]

theorem addLineToHunk_ctx_nonempty (h : Hunk) (l : Str)
    (hadd : ¬ (pfx "+" l && !pfx "+++" l) = true)
    (hrem : ¬ (pfx "-" l && !pfx "---" l) = true)
    (hctx : pfx " " l = true)
    (hemp : ¬ (h.addedLines = [] && h.removedLines = []) = true) :
    addLineToHunk h l =
      { h with content := h.content ++ l ++ strOf "\n",
               lines := h.lines ++ [l],
               contextAfter := h.contextAfter ++ [dropPfxIf " " l] } := by
  simp only [addLineToHunk]
  rw [if_neg hadd, if_neg hrem, if_pos hctx, if_neg (by simpa using hemp)]

theorem addLineToHunk_other (h : Hunk) (l : Str)
    (hadd : ¬ (pfx "+" l && !pfx "+++" l) = true)
    (hrem : ¬ (pfx "-" l && !pfx "---" l) = true)
    (hctx : ¬ pfx " " l = true) :
    addLineToHunk h l =
      { h with content := h.content ++ l ++ strOf "\n",
               lines := h.lines ++ [l] } := by
  simp only [addLineToHunk]
  rw [if_neg hadd, if_neg hrem, if_neg hctx]

/-- The body-line classification of the parser preserves agreement of
the four groups with the recorded lines. -/
theorem hunkGroupsSpec_addLine (h : Hunk) (l : Str) (hs : HunkGroupsSpec h) :
    HunkGroupsSpec (addLineToHunk h l) := by
  obtain ⟨hB, hA, hAd, hRm⟩ := hs
  by_cases hadd : (pfx "+" l && !pfx "+++" l) = true
  · have haddL : isAddLine l = true := hadd
    have hchg : isChangeLine l = true := by rw [isChangeLine, haddL]; rfl
    have hpfxp : pfx "+" l = true := by
      have hconj := hadd
      rw [Bool.and_eq_true] at hconj
      exact hconj.1
    rw [addLineToHunk_add h l hadd]
    refine ⟨?_, ?_, ?_, ?_⟩ <;> dsimp only
    · rw [ctxBeforeOf_concat, ← hAd, ← hRm, ctxStrip_of_change l hchg]
      split <;> simp [hB]
    · rw [ctxAfterOf_concat, ← hAd, ← hRm, ctxStrip_of_change l hchg]
      split <;> simp [hA]
    · rw [addedOf_concat, if_pos haddL, hAd, dropPfxIf_of_pfx "+" l hpfxp]
      rfl
    · rw [removedOf_concat, if_neg (by simp [notRem_of_add l haddL]), hRm]
      simp
  · by_cases hrem : (pfx "-" l && !pfx "---" l) = true
    · have hremL : isRemLine l = true := hrem
      have hchg : isChangeLine l = true := by rw [isChangeLine, hremL]; simp
      have hpfxm : pfx "-" l = true := by
        have hconj := hrem
        rw [Bool.and_eq_true] at hconj
        exact hconj.1
      rw [addLineToHunk_rem h l hadd hrem]
      refine ⟨?_, ?_, ?_, ?_⟩ <;> dsimp only
      · rw [ctxBeforeOf_concat, ← hAd, ← hRm, ctxStrip_of_change l hchg]
        split <;> simp [hB]
      · rw [ctxAfterOf_concat, ← hAd, ← hRm, ctxStrip_of_change l hchg]
        split <;> simp [hA]
      · rw [addedOf_concat, if_neg (by simp [notAdd_of_rem l hremL]), hAd]
        simp
      · rw [removedOf_concat, if_pos hremL, hRm, dropPfxIf_of_pfx "-" l hpfxm]
        rfl
    · by_cases hctx : pfx " " l = true
      · have hctxL : isCtxLine l = true := hctx
        have hnc : isChangeLine l = false := notChange_of_ctx l hctxL
        have hstrip : ctxStrip l = some (l.drop 1) := ctxStrip_of_ctx l hctxL
        have hnc2 : (isAddLine l || isRemLine l) = false := by
          rw [← isChangeLine]
          exact hnc
        have hAddF : isAddLine l = false := (Bool.or_eq_false_iff.1 hnc2).1
        have hRemF : isRemLine l = false := (Bool.or_eq_false_iff.1 hnc2).2
        by_cases hemp : (h.addedLines = [] && h.removedLines = []) = true
        · have hemp2 : addedOf h.lines = [] ∧ removedOf h.lines = [] := by
            rw [← hAd, ← hRm]
            simpa using hemp
          rw [addLineToHunk_ctx_empty h l hadd hrem hctx hemp]
          refine ⟨?_, ?_, ?_, ?_⟩ <;> dsimp only
          · rw [ctxBeforeOf_concat, if_pos hemp2, hstrip, hB,
              dropPfxIf_of_pfx " " l hctx]
            rfl
          · rw [ctxAfterOf_concat, if_pos hemp2, hA]
          · rw [addedOf_concat, if_neg (by simp [hAddF]), hAd]
            simp
          · rw [removedOf_concat, if_neg (by simp [hRemF]), hRm]
            simp
        · have hemp2 : ¬ (addedOf h.lines = [] ∧ removedOf h.lines = []) := by
            rw [← hAd, ← hRm]
            intro hcon
            exact hemp (by simp [hcon.1, hcon.2])
          rw [addLineToHunk_ctx_nonempty h l hadd hrem hctx hemp]
          refine ⟨?_, ?_, ?_, ?_⟩ <;> dsimp only
          · rw [ctxBeforeOf_concat, if_neg hemp2, hB]
          · rw [ctxAfterOf_concat, if_neg hemp2, hstrip, hA,
              dropPfxIf_of_pfx " " l hctx]
            rfl
          · rw [addedOf_concat, if_neg (by simp [hAddF]), hAd]
            simp
          · rw [removedOf_concat, if_neg (by simp [hRemF]), hRm]
            simp
      · have hAddF : isAddLine l = false := by
          rw [isAddLine]
          simpa using hadd
        have hRemF : isRemLine l = false := by
          rw [isRemLine]
          simpa using hrem
        have hCtxF : isCtxLine l = false := by
          rw [isCtxLine]
          simpa using hctx
        have hstrip : ctxStrip l = none := by
          rw [ctxStrip, if_neg (by simp [hCtxF])]
        rw [addLineToHunk_other h l hadd hrem hctx]
        refine ⟨?_, ?_, ?_, ?_⟩ <;> dsimp only
        · rw [ctxBeforeOf_concat, ← hAd, ← hRm, hstrip]
          split <;> simp [hB]
        · rw [ctxAfterOf_concat, ← hAd, ← hRm, hstrip]
          split <;> simp [hA]
        · rw [addedOf_concat, if_neg (by simp [hAddF]), hAd]
          simp
        · rw [removedOf_concat, if_neg (by simp [hRemF]), hRm]
          simp

/-! ## Parser invariant: every produced hunk satisfies `HunkGroupsSpec` -/

/-- Scanning-state invariant: all flushed hunks and the open hunk agree
with their recorded body lines. -/
def ParserInv (st : ParserState) : Prop :=
  (∀ h ∈ st.hunks, HunkGroupsSpec h) ∧
  (∀ h, st.currentHunk = some h → HunkGroupsSpec h)

theorem parserInv_flush (st : ParserState) (hinv : ParserInv st) :
    ParserInv (flushHunk st) := by
  obtain ⟨h1, h2⟩ := hinv
  rcases hcur : st.currentHunk with _ | hh <;> cases hin : st.inHunk <;>
    simp only [flushHunk, hcur, hin]
  · exact ⟨h1, h2⟩
  · exact ⟨h1, h2⟩
  · exact ⟨h1, fun x hx => h2 x (hcur ▸ hx)⟩
  · refine ⟨fun x hx => ?_, fun x hx => by simp at hx⟩
    rcases List.mem_append.1 hx with hx | hx
    · exact h1 x hx
    · rw [List.mem_singleton] at hx
      exact hx ▸ h2 hh hcur

theorem parserInv_stepFileHeader (st0 : ParserState) (line : Str)
    (hinv : ParserInv st0) : ParserInv (stepFileHeader st0 line) := by
  unfold stepFileHeader
  split
  · dsimp only
    split
    · exact parserInv_flush st0 hinv
    · exact parserInv_flush st0 hinv
  · exact hinv

theorem parserInv_stepStatusHeaders (st : ParserState) (line : Str)
    (hinv : ParserInv st) : ParserInv (stepStatusHeaders st line) := by
  unfold stepStatusHeaders
  split
  · exact hinv
  · split
    · exact hinv
    · split
      · exact hinv
      · split
        · exact hinv
        · exact hinv

/-- A freshly created hunk satisfies the group agreement trivially. -/
theorem hunkGroupsSpec_fresh (fp ofp : Str) (n d r : Bool) (hd : Str)
    (os oc ns nc : Int) :
    HunkGroupsSpec
      { filePath := fp, oldFilePath := ofp, isNew := n, isDeleted := d,
        isRenamed := r, header := hd, content := hd ++ strOf "\n",
        lines := [], contextBefore := [], contextAfter := [],
        addedLines := [], removedLines := [],
        oldStartLine := os, oldLineCount := oc,
        newStartLine := ns, newLineCount := nc } :=
  ⟨rfl, rfl, rfl, rfl⟩

theorem stepHunkLine_inv (st st' : ParserState) (line : Str)
    (hst : stepHunkLine st line = Except.ok st') (hinv : ParserInv st) :
    ParserInv st' := by
  obtain ⟨h1, h2⟩ := hinv
  unfold stepHunkLine at hst
  by_cases hat : pfx "@@" line = true
  · rw [if_pos hat] at hst
    have hflushInv : ParserInv (match st.currentHunk, st.inHunk with
        | some h, true => { st with hunks := st.hunks ++ [h] }
        | _, _ => st) := by
      rcases hcur : st.currentHunk with _ | hh <;> cases hin : st.inHunk <;>
        simp only [hcur, hin]
      · exact ⟨h1, h2⟩
      · exact ⟨h1, h2⟩
      · exact ⟨h1, fun x hx => h2 x (hcur ▸ hx)⟩
      · refine ⟨fun x hx => ?_, fun x hx => h2 x (hcur ▸ hx)⟩
        rcases List.mem_append.1 hx with hx | hx
        · exact h1 x hx
        · rw [List.mem_singleton] at hx
          exact hx ▸ h2 hh hcur
    rcases hph : parseHunkHeaderNums line with e | ⟨os, oc, ns, nc⟩ <;>
      rw [hph] at hst
    · exact Except.noConfusion hst
    · have hst2 := Except.ok.inj hst
      rw [← hst2]
      refine ⟨fun x hx => hflushInv.1 x hx, fun x hx => ?_⟩
      have : x = _ := (Option.some.inj hx).symm
      rw [this]
      exact hunkGroupsSpec_fresh _ _ _ _ _ _ _ _ _ _
  · rw [if_neg hat] at hst
    rcases hcur : st.currentHunk with _ | hh <;> cases hin : st.inHunk <;>
      rw [hcur, hin] at hst <;> simp only [] at hst
    · exact Except.ok.inj hst ▸ ⟨h1, h2⟩
    · exact Except.ok.inj hst ▸ ⟨h1, h2⟩
    · exact Except.ok.inj hst ▸ ⟨h1, fun x hx => h2 x (hcur ▸ hx)⟩
    · rw [← Except.ok.inj hst]
      refine ⟨h1, fun x hx => ?_⟩
      have hx2 : x = addLineToHunk hh line := (Option.some.inj hx).symm
      rw [hx2]
      exact hunkGroupsSpec_addLine hh line (h2 hh hcur)

theorem processDiffLine_inv (st0 st' : ParserState) (line : Str)
    (hst : processDiffLine st0 line = Except.ok st') (hinv : ParserInv st0) :
    ParserInv st' :=
  stepHunkLine_inv _ _ _ hst
    (parserInv_stepStatusHeaders _ _ (parserInv_stepFileHeader _ _ hinv))

theorem foldlM_processDiffLine_inv (lines : List Str) :
    ∀ st0 st', List.foldlM processDiffLine st0 lines = Except.ok st' →
      ParserInv st0 → ParserInv st' := by
  induction lines with
  | nil =>
    intro st0 st' h hi
    rw [List.foldlM_nil] at h
    exact Except.ok.inj h ▸ hi
  | cons l ls ih =>
    intro st0 st' h hi
    rw [List.foldlM_cons] at h
    rcases hpl : processDiffLine st0 l with e | st1 <;> rw [hpl] at h
    · exact Except.noConfusion h
    · exact ih st1 st' h (processDiffLine_inv st0 st1 l hpl hi)

/-- Every hunk produced by the parser has its four line groups agreeing
with its recorded body lines. -/
theorem splitDiff_hunkGroups (diff : String) (hs : List Hunk)
    (hok : SplitDiffIntoHunks diff = Except.ok hs) :
    ∀ h ∈ hs, HunkGroupsSpec h := by
  unfold SplitDiffIntoHunks at hok
  rcases hfold : (splitLines diff).foldlM processDiffLine initParserState
    with e | st <;> rw [hfold] at hok
  · exact Except.noConfusion hok
  · have hinv0 : ParserInv initParserState :=
      ⟨fun h hm => by simp [initParserState] at hm,
       fun h hm => by simp [initParserState] at hm⟩
    have hinv := parserInv_flush st
      (foldlM_processDiffLine_inv (splitLines diff) initParserState st hfold hinv0)
    intro h hm
    have hhs : (flushHunk st).hunks = hs := Except.ok.inj hok
    exact hinv.1 h (hhs ▸ hm)

/-! ## C9 helper lemmas -/

theorem filterMap_ctxStrip_of_ctx (c : List Str)
    (hc : ∀ l ∈ c, isCtxLine l = true) :
    List.filterMap ctxStrip c = c.map (fun l => l.drop 1) := by
  induction c with
  | nil => rfl
  | cons x xs ih =>
    rw [List.filterMap_cons, ctxStrip_of_ctx x (hc x (List.mem_cons_self _ _)),
      List.map_cons, ih (fun l hl => hc l (List.mem_cons_of_mem _ hl))]

theorem filterMap_ctxStrip_of_change (c : List Str)
    (hc : ∀ l ∈ c, isChangeLine l = true) :
    List.filterMap ctxStrip c = [] := by
  rw [List.filterMap_eq_nil_iff]
  exact fun l hl => ctxStrip_of_change l (hc l hl)

theorem map_cons_drop_of_ctx (c : List Str)
    (hc : ∀ l ∈ c, isCtxLine l = true) :
    (c.map (fun l => l.drop 1)).map (fun l => ' ' :: l) = c := by
  induction c with
  | nil => rfl
  | cons x xs ih =>
    rw [List.map_cons, List.map_cons,
      ih (fun l hl => hc l (List.mem_cons_of_mem _ hl))]
    rw [← ctx_line_shape x (hc x (List.mem_cons_self _ _))]

theorem map_cons_drop_of_add (c : List Str)
    (hc : ∀ l ∈ c, isAddLine l = true) :
    (c.map (fun l => l.drop 1)).map (fun l => '+' :: l) = c := by
  induction c with
  | nil => rfl
  | cons x xs ih =>
    rw [List.map_cons, List.map_cons,
      ih (fun l hl => hc l (List.mem_cons_of_mem _ hl))]
    rw [← add_line_shape x (hc x (List.mem_cons_self _ _))]

theorem map_cons_drop_of_rem (c : List Str)
    (hc : ∀ l ∈ c, isRemLine l = true) :
    (c.map (fun l => l.drop 1)).map (fun l => '-' :: l) = c := by
  induction c with
  | nil => rfl
  | cons x xs ih =>
    rw [List.map_cons, List.map_cons,
      ih (fun l hl => hc l (List.mem_cons_of_mem _ hl))]
    rw [← rem_line_shape x (hc x (List.mem_cons_self _ _))]

theorem addedOf_eq_filter (m : List Str) :
    addedOf m = (m.filter (fun l => isAddLine l)).map (fun l => l.drop 1) := by
  induction m with
  | nil => rfl
  | cons x xs ih =>
    cases hx : isAddLine x
    · rw [addedOf, List.filterMap_cons, if_neg (by simp [hx]),
        List.filter_cons, if_neg (by simp [hx])]
      exact ih
    · rw [addedOf, List.filterMap_cons, if_pos hx,
        List.filter_cons, if_pos hx, List.map_cons]
      exact congrArg _ ih

theorem removedOf_eq_filter (m : List Str) :
    removedOf m = (m.filter (fun l => isRemLine l)).map (fun l => l.drop 1) := by
  induction m with
  | nil => rfl
  | cons x xs ih =>
    cases hx : isRemLine x
    · rw [removedOf, List.filterMap_cons, if_neg (by simp [hx]),
        List.filter_cons, if_neg (by simp [hx])]
      exact ih
    · rw [removedOf, List.filterMap_cons, if_pos hx,
        List.filter_cons, if_pos hx, List.map_cons]
      exact congrArg _ ih

theorem addedOf_of_ctx (c : List Str) (hc : ∀ l ∈ c, isCtxLine l = true) :
    addedOf c = [] := by
  rw [addedOf, List.filterMap_eq_nil_iff]
  intro l hl
  have hnc2 : (isAddLine l || isRemLine l) = false := by
    rw [← isChangeLine]
    exact notChange_of_ctx l (hc l hl)
  rw [(Bool.or_eq_false_iff.1 hnc2).1]
  rfl

theorem removedOf_of_ctx (c : List Str) (hc : ∀ l ∈ c, isCtxLine l = true) :
    removedOf c = [] := by
  rw [removedOf, List.filterMap_eq_nil_iff]
  intro l hl
  have hnc2 : (isAddLine l || isRemLine l) = false := by
    rw [← isChangeLine]
    exact notChange_of_ctx l (hc l hl)
  rw [(Bool.or_eq_false_iff.1 hnc2).2]
  rfl

/-! ## C9: parser round-trip -/

def c9exDiff : String := "diff --git a/f b/f\n@@ -1,2 +1,4 @@\n a\n+b\n c\n+d\n"

def c9exHunk : Hunk :=
  { filePath := strOf "f", oldFilePath := strOf "f",
    isNew := false, isDeleted := false, isRenamed := false,
    header := strOf "@@ -1,2 +1,4 @@",
    content := strOf "@@ -1,2 +1,4 @@\n a\n+b\n c\n+d\n",
    lines := [strOf " a", strOf "+b", strOf " c", strOf "+d"],
    contextBefore := [strOf "a"], contextAfter := [strOf "c"],
    addedLines := [strOf "b", strOf "d"], removedLines := [],
    oldStartLine := 1, oldLineCount := 2, newStartLine := 1, newLineCount := 4 }

/-- C9 counterexample: for the diff `" a", "+b", " c", "+d"`, the hunk
has no removed lines, so the middle of the claimed reconstruction is
exactly the added lines in original order; yet re-prefixing the groups
gives `[" a", "+b", "+d", " c"]`, not the original body — the interior
context line was classified as context-after and moved. -/
theorem c9_counterexample :
    SplitDiffIntoHunks c9exDiff = Except.ok [c9exHunk] ∧
    c9exHunk.removedLines = [] ∧
    c9exHunk.contextBefore.map (fun l => ' ' :: l) ++
      (c9exHunk.addedLines.map (fun l => '+' :: l) ++
        c9exHunk.contextAfter.map (fun l => ' ' :: l)) ≠ c9exHunk.lines := by
  refine ⟨rfl, rfl, by decide⟩

/-- C9 (amended): for every parsed hunk whose body splits as context
lines, then a non-empty block of added/removed lines, then context
lines, the four groups recover that split exactly and re-prefixing the
groups reproduces the body; in general a context line between change
lines is classified as context-after, so the reconstruction reorders
it, and body lines carrying no recognized marker are dropped. -/
theorem c9_amended_roundtrip (diff : String) (hs : List Hunk) (h : Hunk)
    (hok : SplitDiffIntoHunks diff = Except.ok hs) (hmem : h ∈ hs)
    (c1 m c2 : List Str) (hdec : h.lines = c1 ++ (m ++ c2))
    (hc1 : ∀ l ∈ c1, isCtxLine l = true)
    (hm : ∀ l ∈ m, isChangeLine l = true) (hm0 : m ≠ [])
    (hc2 : ∀ l ∈ c2, isCtxLine l = true) :
    h.contextBefore.map (fun l => ' ' :: l) = c1 ∧
    h.contextAfter.map (fun l => ' ' :: l) = c2 ∧
    h.removedLines.map (fun l => '-' :: l) = m.filter (fun l => isRemLine l) ∧
    h.addedLines.map (fun l => '+' :: l) = m.filter (fun l => isAddLine l) ∧
    h.contextBefore.map (fun l => ' ' :: l) ++
      (m ++ h.contextAfter.map (fun l => ' ' :: l)) = h.lines := by
  obtain ⟨hB, hA, hAd, hRm⟩ := splitDiff_hunkGroups diff hs hok h hmem
  obtain ⟨m0, ms, rfl⟩ := List.exists_cons_of_ne_nil hm0
  have hp1 : ∀ x ∈ c1, (!isChangeLine x) = true := by
    intro x hx
    rw [notChange_of_ctx x (hc1 x hx)]
    rfl
  have hpm0 : (!isChangeLine m0) = false := by
    rw [hm m0 (List.mem_cons_self _ _)]
    rfl
  have hBefore : h.contextBefore = c1.map (fun l => l.drop 1) := by
    rw [hB, hdec, ctxBeforeOf, List.takeWhile_append_of_pos hp1,
      List.cons_append, List.takeWhile_cons, hpm0]
    simp only [Bool.false_eq_true, if_false, List.append_nil]
    exact filterMap_ctxStrip_of_ctx c1 hc1
  have hAfter : h.contextAfter = c2.map (fun l => l.drop 1) := by
    rw [hA, hdec, ctxAfterOf, List.dropWhile_append_of_pos hp1,
      List.cons_append, List.dropWhile_cons, hpm0]
    simp only [Bool.false_eq_true, if_false]
    rw [← List.cons_append, List.filterMap_append,
      filterMap_ctxStrip_of_change _ hm, filterMap_ctxStrip_of_ctx c2 hc2]
    rfl
  have hAdded : h.addedLines =
      ((m0 :: ms).filter (fun l => isAddLine l)).map (fun l => l.drop 1) := by
    rw [hAd, hdec, addedOf]
    rw [List.filterMap_append, List.filterMap_append]
    rw [← addedOf, ← addedOf, ← addedOf, addedOf_of_ctx c1 hc1,
      addedOf_of_ctx c2 hc2, addedOf_eq_filter]
    simp
  have hRemoved : h.removedLines =
      ((m0 :: ms).filter (fun l => isRemLine l)).map (fun l => l.drop 1) := by
    rw [hRm, hdec, removedOf]
    rw [List.filterMap_append, List.filterMap_append]
    rw [← removedOf, ← removedOf, ← removedOf, removedOf_of_ctx c1 hc1,
      removedOf_of_ctx c2 hc2, removedOf_eq_filter]
    simp
  have hmAdd : ∀ l ∈ (m0 :: ms).filter (fun l => isAddLine l), isAddLine l = true := by
    intro l hl
    exact (List.mem_filter.1 hl).2
  have hmRem : ∀ l ∈ (m0 :: ms).filter (fun l => isRemLine l), isRemLine l = true := by
    intro l hl
    exact (List.mem_filter.1 hl).2
  refine ⟨?_, ?_, ?_, ?_, ?_⟩
  · rw [hBefore, map_cons_drop_of_ctx c1 hc1]
  · rw [hAfter, map_cons_drop_of_ctx c2 hc2]
  · rw [hRemoved, map_cons_drop_of_rem _ hmRem]
  · rw [hAdded, map_cons_drop_of_add _ hmAdd]
  · rw [hBefore, map_cons_drop_of_ctx c1 hc1, hAfter,
      map_cons_drop_of_ctx c2 hc2, hdec]

def c9wDiff : String := "diff --git a/f b/f\n@@ -1,3 +1,3 @@\n a\n+b\n-c\n d\n"

def c9wHunk : Hunk :=
  { filePath := strOf "f", oldFilePath := strOf "f",
    isNew := false, isDeleted := false, isRenamed := false,
    header := strOf "@@ -1,3 +1,3 @@",
    content := strOf "@@ -1,3 +1,3 @@\n a\n+b\n-c\n d\n",
    lines := [strOf " a", strOf "+b", strOf "-c", strOf " d"],
    contextBefore := [strOf "a"], contextAfter := [strOf "d"],
    addedLines := [strOf "b"], removedLines := [strOf "c"],
    oldStartLine := 1, oldLineCount := 3, newStartLine := 1, newLineCount := 3 }

/-- C9 witness for the amended theorem. -/
theorem c9_amended_witness :
    c9wHunk.contextBefore.map (fun l => ' ' :: l) = [strOf " a"] ∧
    c9wHunk.contextAfter.map (fun l => ' ' :: l) = [strOf " d"] ∧
    c9wHunk.removedLines.map (fun l => '-' :: l) =
      [strOf "+b", strOf "-c"].filter (fun l => isRemLine l) ∧
    c9wHunk.addedLines.map (fun l => '+' :: l) =
      [strOf "+b", strOf "-c"].filter (fun l => isAddLine l) ∧
    c9wHunk.contextBefore.map (fun l => ' ' :: l) ++
      ([strOf "+b", strOf "-c"] ++ c9wHunk.contextAfter.map (fun l => ' ' :: l)) =
      c9wHunk.lines :=
  c9_amended_roundtrip c9wDiff [c9wHunk] c9wHunk rfl (List.mem_singleton.2 rfl)
    [strOf " a"] [strOf "+b", strOf "-c"] [strOf " d"]
    (by decide) (by decide) (by decide) (by decide) (by decide)

/-! ## Oracle-client post-processing lemmas (C1, C3, C4) -/

/-- The in-range hunk indices of the document's assignment entries, in
entry order (the indices `parseAbsorbResponse` records as assigned). -/
def validIdxs (n : Nat) (entries : List JSONAssignment) : List Int :=
  entries.filterMap (fun e =>
    if e.hunkIndex < 0 ∨ (n : Int) ≤ e.hunkIndex then none else some e.hunkIndex)

/-- Inversion of one step of the assignments loop. -/
theorem processEntries_cons_inv (req : AbsorbRequest) (e : JSONAssignment)
    (rest : List JSONAssignment) (t : List HunkAssignment × List Hunk × List Int)
    (hst : processAssignmentEntries req (e :: rest) = some t) :
    ((e.hunkIndex < 0 ∨ (req.hunks.length : Int) ≤ e.hunkIndex) ∧
        processAssignmentEntries req rest = some t) ∨
    ∃ sha msg alts as' dem' idxs',
      ¬ (e.hunkIndex < 0 ∨ (req.hunks.length : Int) ≤ e.hunkIndex) ∧
      resolveCommitSHA req.commits e.commitSHA = some (sha, msg) ∧
      processAlternatives req.commits e.alternatives = some alts ∧
      processAssignmentEntries req rest = some (as', dem', idxs') ∧
      ((req.strategy = "best-match" ∧ e.confidence < req.confidenceThreshold) ∧
          t = (as', req.hunks.getD e.hunkIndex.toNat dummyHunk :: dem',
               e.hunkIndex :: idxs') ∨
        ¬ (req.strategy = "best-match" ∧ e.confidence < req.confidenceThreshold) ∧
          t = ({ hunk := req.hunks.getD e.hunkIndex.toNat dummyHunk,
                 commitSHA := sha, commitMessage := msg,
                 confidence := e.confidence, reasoning := e.reasoning,
                 alternatives := alts } :: as', dem', e.hunkIndex :: idxs')) := by
  rw [processAssignmentEntries] at hst
  by_cases hr : e.hunkIndex < 0 ∨ (req.hunks.length : Int) ≤ e.hunkIndex
  · rw [if_pos hr] at hst
    exact Or.inl ⟨hr, hst⟩
  · rw [if_neg hr] at hst
    refine Or.inr ?_
    rcases hsha : resolveCommitSHA req.commits e.commitSHA with _ | ⟨sha, msg⟩ <;>
      rw [hsha] at hst
    · simp at hst
    rcases halts : processAlternatives req.commits e.alternatives with _ | alts <;>
      rw [halts] at hst
    · simp at hst
    rcases hrec : processAssignmentEntries req rest with _ | ⟨as', dem', idxs'⟩ <;>
      rw [hrec] at hst
    · simp at hst
    simp only [Option.bind_eq_bind, Option.some_bind, Option.pure_def] at hst
    refine ⟨sha, msg, alts, as', dem', idxs', hr, rfl, rfl, rfl, ?_⟩
    by_cases hdem : req.strategy = "best-match" ∧ e.confidence < req.confidenceThreshold
    · rw [if_pos hdem] at hst
      exact Or.inl ⟨hdem, (Option.some.inj hst).symm⟩
    · rw [if_neg hdem] at hst
      exact Or.inr ⟨hdem, (Option.some.inj hst).symm⟩

theorem validIdxs_cons_skip (n : Nat) (e : JSONAssignment)
    (rest : List JSONAssignment)
    (hr : e.hunkIndex < 0 ∨ (n : Int) ≤ e.hunkIndex) :
    validIdxs n (e :: rest) = validIdxs n rest := by
  simp [validIdxs, List.filterMap_cons, if_pos hr]

theorem validIdxs_cons_keep (n : Nat) (e : JSONAssignment)
    (rest : List JSONAssignment)
    (hr : ¬ (e.hunkIndex < 0 ∨ (n : Int) ≤ e.hunkIndex)) :
    validIdxs n (e :: rest) = e.hunkIndex :: validIdxs n rest := by
  simp [validIdxs, List.filterMap_cons, if_neg hr]

/-- The recorded assigned indices are exactly the in-range entry
indices, in order. -/
theorem processEntries_idxs (req : AbsorbRequest) :
    ∀ (entries : List JSONAssignment) as dem idxs,
      processAssignmentEntries req entries = some (as, dem, idxs) →
      idxs = validIdxs req.hunks.length entries := by
  intro entries
  induction entries with
  | nil =>
    intro as dem idxs hst
    rw [processAssignmentEntries] at hst
    have h := Option.some.inj hst
    simp only [Prod.mk.injEq] at h
    simp [validIdxs, ← h.2.2]
  | cons e rest ih =>
    intro as dem idxs hst
    rcases processEntries_cons_inv req e rest _ hst with ⟨hr, hrec⟩ |
      ⟨sha, msg, alts, as', dem', idxs', hr, hsha, halts, hrec, hres⟩
    · rw [validIdxs_cons_skip _ _ _ hr]
      exact ih as dem idxs hrec
    · rw [validIdxs_cons_keep _ _ _ hr]
      rcases hres with ⟨hdem, ht⟩ | ⟨hdem, ht⟩ <;>
        · simp only [Prod.mk.injEq] at ht
          rw [ht.2.2]
          exact congrArg _ (ih as' dem' idxs' hrec)

/-- Provenance of kept assignments: every assignment in the loop's
output comes from an in-range entry that was not demoted, keeping its
hunk, confidence, and alternative confidences. -/
theorem processEntries_provenance (req : AbsorbRequest) :
    ∀ (entries : List JSONAssignment) as dem idxs,
      processAssignmentEntries req entries = some (as, dem, idxs) →
      ∀ a ∈ as, ∃ e ∈ entries,
        ¬ (e.hunkIndex < 0 ∨ (req.hunks.length : Int) ≤ e.hunkIndex) ∧
        ¬ (req.strategy = "best-match" ∧ e.confidence < req.confidenceThreshold) ∧
        a.hunk = req.hunks.getD e.hunkIndex.toNat dummyHunk ∧
        a.confidence = e.confidence ∧
        a.alternatives.map (fun alt => alt.confidence) =
          e.alternatives.map (fun alt => alt.confidence) := by
  intro entries
  induction entries with
  | nil =>
    intro as dem idxs hst a ha
    rw [processAssignmentEntries] at hst
    have h := Option.some.inj hst
    simp only [Prod.mk.injEq] at h
    rw [← h.1] at ha
    simp at ha
  | cons e rest ih =>
    intro as dem idxs hst a ha
    rcases processEntries_cons_inv req e rest _ hst with ⟨hr, hrec⟩ |
      ⟨sha, msg, alts, as', dem', idxs', hr, hsha, halts, hrec, hres⟩
    · obtain ⟨e2, he2, hprops⟩ := ih as dem idxs hrec a ha
      exact ⟨e2, List.mem_cons_of_mem _ he2, hprops⟩
    · rcases hres with ⟨hdem, ht⟩ | ⟨hdem, ht⟩
      · simp only [Prod.mk.injEq] at ht
        rw [ht.1] at ha
        obtain ⟨e2, he2, hprops⟩ := ih as' dem' idxs' hrec a ha
        exact ⟨e2, List.mem_cons_of_mem _ he2, hprops⟩
      · simp only [Prod.mk.injEq] at ht
        rw [ht.1] at ha
        rcases List.mem_cons.1 ha with rfl | ha2
        · refine ⟨e, List.mem_cons_self _ _, hr, hdem, rfl, rfl, ?_⟩
          have hconfs : ∀ (jalts : List JSONAlternative) (outs : List AlternativeAssignment),
              processAlternatives req.commits jalts = some outs →
              outs.map (fun alt => alt.confidence) =
                jalts.map (fun alt => alt.confidence) := by
            intro jalts
            induction jalts with
            | nil =>
              intro outs h
              rw [processAlternatives] at h
              rw [← Option.some.inj h]
              rfl
            | cons ja jrest ihj =>
              intro outs h
              rw [processAlternatives] at h
              rcases hsha2 : resolveCommitSHA req.commits ja.commitSHA with _ | ⟨s2, m2⟩ <;>
                rw [hsha2] at h
              · simp at h
              rcases hrest2 : processAlternatives req.commits jrest with _ | outs' <;>
                rw [hrest2] at h
              · simp at h
              rw [← Option.some.inj h, List.map_cons, List.map_cons, ihj outs' hrest2]
          exact hconfs e.alternatives alts halts
        · obtain ⟨e2, he2, hprops⟩ := ih as' dem' idxs' hrec a ha2
          exact ⟨e2, List.mem_cons_of_mem _ he2, hprops⟩

/-- A demoted best-match entry always lands its hunk in the demoted
list. -/
theorem processEntries_demoted (req : AbsorbRequest) :
    ∀ (entries : List JSONAssignment) as dem idxs,
      processAssignmentEntries req entries = some (as, dem, idxs) →
      ∀ e ∈ entries,
        ¬ (e.hunkIndex < 0 ∨ (req.hunks.length : Int) ≤ e.hunkIndex) →
        req.strategy = "best-match" → e.confidence < req.confidenceThreshold →
        req.hunks.getD e.hunkIndex.toNat dummyHunk ∈ dem := by
  intro entries
  induction entries with
  | nil =>
    intro as dem idxs hst e he
    simp at he
  | cons e0 rest ih =>
    intro as dem idxs hst e he hrange hbm hconf
    rcases processEntries_cons_inv req e0 rest _ hst with ⟨hr, hrec⟩ |
      ⟨sha, msg, alts, as', dem', idxs', hr, hsha, halts, hrec, hres⟩
    · rcases List.mem_cons.1 he with rfl | he2
      · exact absurd hr hrange
      · exact ih as dem idxs hrec e he2 hrange hbm hconf
    · rcases hres with ⟨hdem, ht⟩ | ⟨hdem, ht⟩
      · simp only [Prod.mk.injEq] at ht
        rw [ht.2.1]
        rcases List.mem_cons.1 he with rfl | he2
        · exact List.mem_cons_self _ _
        · exact List.mem_cons_of_mem _ (ih as' dem' idxs' hrec e he2 hrange hbm hconf)
      · simp only [Prod.mk.injEq] at ht
        rw [ht.2.1]
        rcases List.mem_cons.1 he with rfl | he2
        · exact absurd ⟨hbm, hconf⟩ hdem
        · exact ih as' dem' idxs' hrec e he2 hrange hbm hconf

theorem filterMap_if {α β : Type} (f : α → β) (p : α → Prop) [DecidablePred p]
    (l : List α) :
    (l.filterMap fun a => if p a then some (f a) else none) =
      (l.filter fun a => decide (p a)).map f := by
  induction l with
  | nil => rfl
  | cons x xs ih =>
    by_cases hx : p x
    · rw [List.filterMap_cons, if_pos hx, List.filter_cons,
        if_pos (by simpa using hx), List.map_cons, ih]
    · rw [List.filterMap_cons, if_neg hx, List.filter_cons,
        if_neg (by simpa using hx), ih]

theorem processUnmatchedIdxs_eq (hunks : List Hunk) (assigned idxs : List Int) :
    processUnmatchedIdxs hunks assigned idxs =
      (idxs.filter fun idx =>
          decide (0 ≤ idx ∧ idx < (hunks.length : Int) ∧ idx ∉ assigned)).map
        (fun idx => hunks.getD idx.toNat dummyHunk) := by
  rw [processUnmatchedIdxs]
  exact filterMap_if (fun idx => hunks.getD idx.toNat dummyHunk)
    (fun idx => 0 ≤ idx ∧ idx < (hunks.length : Int) ∧ idx ∉ assigned) idxs

theorem closureUnmatched_eq (hunks : List Hunk) (assigned unmatchedIdxs : List Int) :
    closureUnmatched hunks assigned unmatchedIdxs =
      ((List.range hunks.length).filter fun (i : Nat) =>
          decide ((i : Int) ∉ assigned ∧ (i : Int) ∉ unmatchedIdxs)).map
        (fun (i : Nat) => hunks.getD i dummyHunk) := by
  rw [closureUnmatched]
  exact filterMap_if (fun (i : Nat) => hunks.getD i dummyHunk)
    (fun (i : Nat) => (i : Int) ∉ assigned ∧ (i : Int) ∉ unmatchedIdxs)
    (List.range hunks.length)

theorem count_of_nodup {α : Type} [DecidableEq α] (l : List α) (h : l.Nodup)
    (a : α) : l.count a = if a ∈ l then 1 else 0 := by
  by_cases hm : a ∈ l
  · rw [if_pos hm, List.count_eq_one_of_mem h hm]
  · rw [if_neg hm, List.count_eq_zero_of_not_mem hm]

theorem range_map_getD {α : Type} (l : List α) (d : α) :
    (List.range l.length).map (fun i => l.getD i d) = l := by
  induction l with
  | nil => rfl
  | cons x xs ih =>
    rw [List.length_cons, List.range_succ_eq_map, List.map_cons,
      List.map_map]
    rw [show ((fun i => (x :: xs).getD i d) ∘ Nat.succ) =
      (fun i => xs.getD i d) from rfl]
    rw [ih]
    rfl

/-- Count balance of the assignments loop: every recorded index places
its hunk exactly once, either as a kept assignment or as a demoted
unmatched hunk. -/
theorem processEntries_counts (req : AbsorbRequest) :
    ∀ (entries : List JSONAssignment) as dem idxs,
      processAssignmentEntries req entries = some (as, dem, idxs) →
      ∀ hq : Hunk,
        (as.map (fun a => a.hunk)).count hq + dem.count hq =
          (idxs.map (fun i => req.hunks.getD i.toNat dummyHunk)).count hq := by
  intro entries
  induction entries with
  | nil =>
    intro as dem idxs hst hq
    rw [processAssignmentEntries] at hst
    have h := Option.some.inj hst
    simp only [Prod.mk.injEq] at h
    rw [← h.1, ← h.2.1, ← h.2.2]
    rfl
  | cons e rest ih =>
    intro as dem idxs hst hq
    rcases processEntries_cons_inv req e rest _ hst with ⟨hr, hrec⟩ |
      ⟨sha, msg, alts, as', dem', idxs', hr, hsha, halts, hrec, hres⟩
    · exact ih as dem idxs hrec hq
    · rcases hres with ⟨hdem, ht⟩ | ⟨hdem, ht⟩ <;>
        simp only [Prod.mk.injEq] at ht
      · rw [ht.1, ht.2.1, ht.2.2]
        have hih := ih as' dem' idxs' hrec hq
        simp only [List.map_cons, List.count_cons]
        omega
      · rw [ht.1, ht.2.1, ht.2.2]
        have hih := ih as' dem' idxs' hrec hq
        simp only [List.map_cons, List.count_cons]
        omega

/-- Index-level partition: the assigned indices, the surviving unmatched
indices, and the closure indices together enumerate `range n` exactly
once each, provided neither input index list repeats an index. -/
theorem idxPartition_perm (n : Nat) (LA U : List Int)
    (hAnn : ∀ j ∈ LA, 0 ≤ j ∧ j < (n : Int))
    (hAnd : LA.Nodup) (hUnd : U.Nodup) :
    ((LA.map Int.toNat) ++
      ((U.filter fun idx => decide (0 ≤ idx ∧ idx < (n : Int) ∧ idx ∉ LA)).map
        Int.toNat) ++
      ((List.range n).filter fun (i : Nat) =>
        decide ((i : Int) ∉ LA ∧ (i : Int) ∉ U))).Perm (List.range n) := by
  rw [List.perm_iff_count]
  intro i
  have hMA_nodup : (LA.map Int.toNat).Nodup := by
    refine hAnd.map_on ?_
    intro x hx y hy hxy
    have hx2 := (hAnn x hx).1
    have hy2 := (hAnn y hy).1
    omega
  have hMU_nodup :
      ((U.filter fun idx =>
        decide (0 ≤ idx ∧ idx < (n : Int) ∧ idx ∉ LA)).map Int.toNat).Nodup := by
    refine (hUnd.filter _).map_on ?_
    intro x hx y hy hxy
    have hx2 := (List.mem_filter.1 hx).2
    have hy2 := (List.mem_filter.1 hy).2
    rw [decide_eq_true_eq] at hx2 hy2
    omega
  have hCL_nodup :
      ((List.range n).filter fun (i : Nat) =>
        decide ((i : Int) ∉ LA ∧ (i : Int) ∉ U)).Nodup :=
    (List.nodup_range n).filter _
  have hMA_mem : i ∈ LA.map Int.toNat ↔ (i : Int) ∈ LA := by
    constructor
    · intro hm
      obtain ⟨j, hj, hji⟩ := List.mem_map.1 hm
      have hj0 := (hAnn j hj).1
      have : j = (i : Int) := by omega
      exact this ▸ hj
    · intro hm
      exact List.mem_map.2 ⟨(i : Int), hm, by simp⟩
  have hMU_mem :
      i ∈ (U.filter fun idx =>
          decide (0 ≤ idx ∧ idx < (n : Int) ∧ idx ∉ LA)).map Int.toNat ↔
        ((i : Int) ∈ U ∧ i < n ∧ (i : Int) ∉ LA) := by
    constructor
    · intro hm
      obtain ⟨j, hj, hji⟩ := List.mem_map.1 hm
      obtain ⟨hjU, hjc⟩ := List.mem_filter.1 hj
      rw [decide_eq_true_eq] at hjc
      have : j = (i : Int) := by omega
      subst this
      exact ⟨hjU, by omega, hjc.2.2⟩
    · rintro ⟨hU2, hlt, hnla⟩
      refine List.mem_map.2 ⟨(i : Int), List.mem_filter.2 ⟨hU2, ?_⟩, by simp⟩
      rw [decide_eq_true_eq]
      exact ⟨by omega, by omega, hnla⟩
  have hCL_mem :
      i ∈ (List.range n).filter (fun (i : Nat) =>
          decide ((i : Int) ∉ LA ∧ (i : Int) ∉ U)) ↔
        (i < n ∧ (i : Int) ∉ LA ∧ (i : Int) ∉ U) := by
    rw [List.mem_filter, List.mem_range, decide_eq_true_eq]
  rw [List.count_append, List.count_append,
    count_of_nodup _ hMA_nodup i, count_of_nodup _ hMU_nodup i,
    count_of_nodup _ hCL_nodup i, count_of_nodup _ (List.nodup_range n) i]
  by_cases hin : i < n
  · by_cases hila : (i : Int) ∈ LA
    · rw [if_pos (hMA_mem.2 hila),
        if_neg (fun hc => (hMU_mem.1 hc).2.2 hila),
        if_neg (fun hc => (hCL_mem.1 hc).2.1 hila),
        if_pos (List.mem_range.2 hin)]
    · by_cases hiu : (i : Int) ∈ U
      · rw [if_neg (fun hc => hila (hMA_mem.1 hc)),
          if_pos (hMU_mem.2 ⟨hiu, hin, hila⟩),
          if_neg (fun hc => (hCL_mem.1 hc).2.2 hiu),
          if_pos (List.mem_range.2 hin)]
      · rw [if_neg (fun hc => hila (hMA_mem.1 hc)),
          if_neg (fun hc => hiu (hMU_mem.1 hc).1),
          if_pos (hCL_mem.2 ⟨hin, hila, hiu⟩),
          if_pos (List.mem_range.2 hin)]
  · have hnla : (i : Int) ∉ LA := fun hc => hin (by
      have := (hAnn _ hc).2
      omega)
    rw [if_neg (fun hc => hnla (hMA_mem.1 hc)),
      if_neg (fun hc => hin (hMU_mem.1 hc).2.1),
      if_neg (fun hc => hin (hCL_mem.1 hc).1),
      if_neg (fun hc => hin (List.mem_range.1 hc))]

/-- 1/2 as an explicit rational (Go float64 0.5). -/
def ratHalf : Rat := ⟨1, 2, by decide, by decide⟩

/-- 7/10 as an explicit rational (the default confidence threshold 0.7). -/
def ratSevenTenths : Rat := ⟨7, 10, by decide, by decide⟩

/-- 9/10 as an explicit rational (0.9). -/
def ratNineTenths : Rat := ⟨9, 10, by decide, by decide⟩

/-- 3/2 as an explicit rational (an out-of-range confidence 1.5). -/
def ratThreeHalves : Rat := ⟨3, 2, by decide, by decide⟩

def c1req : AbsorbRequest :=
  { hunks := [exHunkA], commits := [], strategy := "best-match",
    confidenceThreshold := ratSevenTenths }

def c1doc : JSONAbsorbResponse :=
  { assignments :=
      [{ hunkIndex := 0, commitSHA := strOf "aaaaaaaa11", confidence := ratNineTenths,
         reasoning := [], alternatives := [] },
       { hunkIndex := 0, commitSHA := strOf "aaaaaaaa11", confidence := ratHalf,
         reasoning := [], alternatives := [] }],
    unmatchedHunks := [] }

/-- C1 counterexample: a document whose assignment entries mention hunk
index 0 twice (confidences 0.9 and 0.5, best-match threshold 0.7)
places the sole submitted hunk in the assignments list (via the first
entry) and in the unmatched list (the second entry is demoted) — in
both, contradicting the partition claim. -/
theorem c1_counterexample :
    (parseAbsorbResponse c1req c1doc).map
      (fun r => (r.assignments.map (fun a => a.hunk), r.unmatchedHunks)) =
      some ([exHunkA], [exHunkA]) := by
  decide

/-- C1 (amended): every submitted hunk lands in at least one of the two
lists; and when the document's in-range assignment indices are pairwise
distinct and its unmatched index list has no duplicates, the hunks of
the assignments list together with the unmatched list are exactly the
submitted hunks, each placed exactly once (a permutation). -/
theorem c1_amended_partition (req : AbsorbRequest) (jr : JSONAbsorbResponse)
    (resp : AbsorbResponse) (hok : parseAbsorbResponse req jr = some resp)
    (hA : (validIdxs req.hunks.length jr.assignments).Nodup)
    (hU : jr.unmatchedHunks.Nodup) :
    (resp.assignments.map (fun a => a.hunk) ++ resp.unmatchedHunks).Perm
      req.hunks := by
  rw [parseAbsorbResponse] at hok
  rcases hpe : processAssignmentEntries req jr.assignments with _ | ⟨as, dem, idxs⟩ <;>
    rw [hpe] at hok
  · simp at hok
  simp only [Option.bind_eq_bind, Option.some_bind, Option.pure_def] at hok
  have hresp := Option.some.inj hok
  rw [← hresp]
  dsimp only
  have hidx := processEntries_idxs req jr.assignments as dem idxs hpe
  have hnn : ∀ j ∈ validIdxs req.hunks.length jr.assignments,
      0 ≤ j ∧ j < (req.hunks.length : Int) := by
    intro j hj
    obtain ⟨e, he, hcond⟩ := List.mem_filterMap.1 hj
    by_cases hc : e.hunkIndex < 0 ∨ (req.hunks.length : Int) ≤ e.hunkIndex
    · rw [if_pos hc] at hcond
      exact absurd hcond (by simp)
    · rw [if_neg hc] at hcond
      cases Option.some.inj hcond
      push_neg at hc
      exact ⟨by omega, hc.2⟩
  have hperm := idxPartition_perm req.hunks.length
    (validIdxs req.hunks.length jr.assignments) jr.unmatchedHunks hnn hA hU
  have hpermMapped := hperm.map (fun (i : Nat) => req.hunks.getD i dummyHunk)
  rw [range_map_getD req.hunks dummyHunk] at hpermMapped
  rw [List.perm_iff_count]
  intro hq
  have hc1 := processEntries_counts req jr.assignments as dem idxs hpe hq
  rw [hidx] at hc1
  have hc2 := List.perm_iff_count.1 hpermMapped hq
  rw [processUnmatchedIdxs_eq, closureUnmatched_eq, hidx]
  simp only [List.map_append, List.map_map, List.count_append,
    Function.comp_def] at hc2 ⊢
  omega

def c1wreq : AbsorbRequest :=
  { hunks := [exHunkA, exHunkB], commits := [], strategy := "interactive",
    confidenceThreshold := ratSevenTenths }

def c1wdoc : JSONAbsorbResponse :=
  { assignments :=
      [{ hunkIndex := 0, commitSHA := strOf "aaaaaaaa11", confidence := ratNineTenths,
         reasoning := [], alternatives := [] }],
    unmatchedHunks := [1] }

def c1wresp : AbsorbResponse :=
  { assignments :=
      [{ hunk := exHunkA, commitSHA := strOf "aaaaaaaa11", commitMessage := [],
         confidence := ratNineTenths, reasoning := [], alternatives := [] }],
    unmatchedHunks := [exHunkB] }

/-- C1 witness for the amended theorem. -/
theorem c1_amended_witness :
    ((c1wresp.assignments.map (fun a => a.hunk)) ++ c1wresp.unmatchedHunks).Perm
      c1wreq.hunks :=
  c1_amended_partition c1wreq c1wdoc c1wresp (by decide) (by decide) (by decide)

theorem getD_inj_of_nodup {α : Type} (l : List α) (d : α) (hnd : l.Nodup)
    (i j : Nat) (hi : i < l.length) (hj : j < l.length)
    (h : l.getD i d = l.getD j d) : i = j := by
  rw [List.getD_eq_getElem?_getD, List.getD_eq_getElem?_getD,
    List.getElem?_eq_getElem hi, List.getElem?_eq_getElem hj] at h
  simp only [Option.getD_some] at h
  exact (hnd.getElem_inj_iff).1 h

def c3req : AbsorbRequest :=
  { hunks := [exHunkA], commits := [], strategy := "best-match",
    confidenceThreshold := ratSevenTenths }

def c3doc : JSONAbsorbResponse :=
  { assignments :=
      [{ hunkIndex := 0, commitSHA := strOf "aaaaaaaa11", confidence := ratHalf,
         reasoning := [], alternatives := [] },
       { hunkIndex := 0, commitSHA := strOf "aaaaaaaa11", confidence := ratNineTenths,
         reasoning := [], alternatives := [] }],
    unmatchedHunks := [] }

/-- C3 counterexample: under best-match with threshold 0.7, an
oracle-proposed assignment of hunk 0 with confidence 0.5 is demoted to
unmatched, but a second entry for the same hunk index (confidence 0.9)
still puts the hunk into the assignments list — so the low-confidence
entry's hunk IS in the assignments list, contradicting the claim. -/
theorem c3_counterexample :
    ratHalf < c3req.confidenceThreshold ∧
    (parseAbsorbResponse c3req c3doc).map
      (fun r => (r.assignments.map (fun a => a.hunk), r.unmatchedHunks)) =
      some ([exHunkA], [exHunkA]) := by
  decide

/-- C3 (amended): under best-match, every in-range assignment entry
below the threshold puts its hunk into the unmatched list; and provided
no other kept entry shares its hunk index and the submitted hunks are
pairwise distinct, the hunk does not appear in the assignments list. -/
theorem c3_amended_demotion (req : AbsorbRequest) (jr : JSONAbsorbResponse)
    (resp : AbsorbResponse) (hok : parseAbsorbResponse req jr = some resp)
    (hbm : req.strategy = "best-match")
    (e : JSONAssignment) (he : e ∈ jr.assignments)
    (hrange : ¬ (e.hunkIndex < 0 ∨ (req.hunks.length : Int) ≤ e.hunkIndex))
    (hconf : e.confidence < req.confidenceThreshold)
    (huniq : ∀ e2 ∈ jr.assignments,
      ¬ (e2.hunkIndex < 0 ∨ (req.hunks.length : Int) ≤ e2.hunkIndex) →
      ¬ (req.strategy = "best-match" ∧ e2.confidence < req.confidenceThreshold) →
      e2.hunkIndex ≠ e.hunkIndex)
    (hnodup : req.hunks.Nodup) :
    req.hunks.getD e.hunkIndex.toNat dummyHunk ∈ resp.unmatchedHunks ∧
    req.hunks.getD e.hunkIndex.toNat dummyHunk ∉
      resp.assignments.map (fun a => a.hunk) := by
  rw [parseAbsorbResponse] at hok
  rcases hpe : processAssignmentEntries req jr.assignments with _ | ⟨as, dem, idxs⟩ <;>
    rw [hpe] at hok
  · simp at hok
  simp only [Option.bind_eq_bind, Option.some_bind, Option.pure_def] at hok
  have hresp := Option.some.inj hok
  rw [← hresp]
  dsimp only
  constructor
  · have hdm := processEntries_demoted req jr.assignments as dem idxs hpe e he
      hrange hbm hconf
    exact List.mem_append_left _ (List.mem_append_left _ hdm)
  · intro hmem
    obtain ⟨a, ha, hah⟩ := List.mem_map.1 hmem
    obtain ⟨e2, he2, hr2, hnd2, hhunk, -, -⟩ :=
      processEntries_provenance req jr.assignments as dem idxs hpe a ha
    push_neg at hrange
    have hr2p := hr2
    push_neg at hr2p
    have hieq : e2.hunkIndex.toNat = e.hunkIndex.toNat := by
      refine getD_inj_of_nodup req.hunks dummyHunk hnodup _ _ ?_ ?_ ?_
      · omega
      · omega
      · rw [← hhunk, hah]
    have : e2.hunkIndex = e.hunkIndex := by omega
    exact huniq e2 he2 hr2 hnd2 this

def c4req : AbsorbRequest :=
  { hunks := [exHunkA], commits := [], strategy := "interactive",
    confidenceThreshold := ratSevenTenths }

def c4doc : JSONAbsorbResponse :=
  { assignments :=
      [{ hunkIndex := 0, commitSHA := strOf "aaaaaaaa11",
         confidence := ratThreeHalves, reasoning := [],
         alternatives := [{ commitSHA := strOf "bbbbbbbb22",
                            confidence := ratNineTenths, reasoning := [] }] }],
    unmatchedHunks := [] }

/-- C4 counterexample: a document supplying confidence 1.5 produces an
assignment whose stored confidence is still 1.5 — outside [0,1], so no
clamping happens anywhere in the post-processing. -/
theorem c4_counterexample :
    (parseAbsorbResponse c4req c4doc).map
      (fun r => r.assignments.map (fun a => a.confidence)) =
      some [ratThreeHalves] ∧
    ¬ (ratThreeHalves ≤ 1) := by
  decide

/-- C4 (amended): confidences are propagated verbatim — every stored
assignment's confidence equals the oracle-supplied confidence of its
entry, and its alternatives' confidences equal the entry's alternative
confidences in order; out-of-range values are preserved, not clamped. -/
theorem c4_amended_passthrough (req : AbsorbRequest) (jr : JSONAbsorbResponse)
    (resp : AbsorbResponse) (hok : parseAbsorbResponse req jr = some resp) :
    ∀ a ∈ resp.assignments, ∃ e ∈ jr.assignments,
      a.confidence = e.confidence ∧
      a.alternatives.map (fun alt => alt.confidence) =
        e.alternatives.map (fun alt => alt.confidence) := by
  rw [parseAbsorbResponse] at hok
  rcases hpe : processAssignmentEntries req jr.assignments with _ | ⟨as, dem, idxs⟩ <;>
    rw [hpe] at hok
  · simp at hok
  simp only [Option.bind_eq_bind, Option.some_bind, Option.pure_def] at hok
  have hresp := Option.some.inj hok
  rw [← hresp]
  dsimp only
  intro a ha
  obtain ⟨e, he, -, -, -, hconf, halts⟩ :=
    processEntries_provenance req jr.assignments as dem idxs hpe a ha
  exact ⟨e, he, hconf, halts⟩

def c4wAssign : HunkAssignment :=
  { hunk := exHunkA, commitSHA := strOf "aaaaaaaa11", commitMessage := [],
    confidence := ratThreeHalves, reasoning := [],
    alternatives := [{ commitSHA := strOf "bbbbbbbb22", commitMessage := [],
                       confidence := ratNineTenths, reasoning := [] }] }

def c4wresp : AbsorbResponse :=
  { assignments := [c4wAssign], unmatchedHunks := [] }

/-- C4 witness for the amended theorem. -/
theorem c4_amended_witness :
    ∃ e ∈ c4doc.assignments,
      c4wAssign.confidence = e.confidence ∧
      c4wAssign.alternatives.map (fun alt => alt.confidence) =
        e.alternatives.map (fun alt => alt.confidence) :=
  c4_amended_passthrough c4req c4doc c4wresp (by decide) c4wAssign
    (List.mem_singleton.2 rfl)

def c3wreq : AbsorbRequest :=
  { hunks := [exHunkA, exHunkB], commits := [], strategy := "best-match",
    confidenceThreshold := ratSevenTenths }

def c3wdoc : JSONAbsorbResponse :=
  { assignments :=
      [{ hunkIndex := 0, commitSHA := strOf "aaaaaaaa11", confidence := ratHalf,
         reasoning := [], alternatives := [] },
       { hunkIndex := 1, commitSHA := strOf "aaaaaaaa11", confidence := ratNineTenths,
         reasoning := [], alternatives := [] }],
    unmatchedHunks := [] }

def c3wresp : AbsorbResponse :=
  { assignments :=
      [{ hunk := exHunkB, commitSHA := strOf "aaaaaaaa11", commitMessage := [],
         confidence := ratNineTenths, reasoning := [], alternatives := [] }],
    unmatchedHunks := [exHunkA] }

/-- C3 witness for the amended theorem. -/
theorem c3_amended_witness :
    c3wreq.hunks.getD (0 : Int).toNat dummyHunk ∈ c3wresp.unmatchedHunks ∧
    c3wreq.hunks.getD (0 : Int).toNat dummyHunk ∉
      c3wresp.assignments.map (fun a => a.hunk) :=
  c3_amended_demotion c3wreq c3wdoc c3wresp (by decide) rfl
    { hunkIndex := 0, commitSHA := strOf "aaaaaaaa11", confidence := ratHalf,
      reasoning := [], alternatives := [] }
    (by decide) (by decide) (by decide) (by decide) (by decide)

end Cmt
